import Mathlib

/-!
Verification development for the awful_text_news pipeline.

Strings are modelled as `List Char` (Rust `String`/`&str`), documents as the
full character list of the file.  Machine integers that matter (durations in
milliseconds, nanoseconds of the local clock) are modelled as `Nat`; overflow
is unreachable at the values involved and noted where relevant.  Fallible
operations return `Except`/`Option`.  External collaborators (the network,
the `url` crate, `serde_json`, the enrichment service, the RNG) enter as
oracle parameters or as small models marked in their doc comments.
-/

/-! ## Generic string machinery (Rust `str` methods used by the sources) -/

/-- Whitespace test used by Rust `str::trim` (restricted to the ASCII
whitespace characters that occur in these documents). -/
def isWsChar (c : Char) : Bool := c = ' ' || c = '\t' || c = '\n' || c = '\r'

/-- Model of Rust `str::trim`: drop whitespace from both ends. -/
def rustTrim (l : List Char) : List Char :=
  ((l.dropWhile isWsChar).reverse.dropWhile isWsChar).reverse

/-- Model of Rust `str::split_inclusive('\n')`: pieces keep their trailing
newline; the empty string yields no pieces. -/
def splitInclNl : List Char → List (List Char)
  | [] => []
  | c :: cs =>
    if c = '\n' then [c] :: splitInclNl cs
    else
      match splitInclNl cs with
      | [] => [[c]]
      | p :: ps => (c :: p) :: ps

/-- The per-piece map of Rust `str::lines`: strip one trailing `'\n'` and,
if one was stripped, one trailing `'\r'`. -/
def stripNlCr (l : List Char) : List Char :=
  if l.getLast? = some '\n' then
    if l.dropLast.getLast? = some '\r' then l.dropLast.dropLast else l.dropLast
  else l

/-- Model of Rust `str::lines()`. -/
def rustLines (s : List Char) : List (List Char) :=
  (splitInclNl s).map stripNlCr

/-- Model of `Vec::join("\n")` on a vector of lines. -/
def joinLines (ls : List (List Char)) : List Char :=
  List.intercalate ['\n'] ls

/-- Model of Rust `str::contains(needle)` (substring search). -/
def isSubstring (needle : List Char) : List Char → Bool
  | [] => needle.isEmpty
  | c :: t => needle.isPrefixOf (c :: t) || isSubstring needle t

/-- Model of Rust `str::split(sep)` for a single-character separator. -/
def splitOnChar (sep : Char) : List Char → List (List Char)
  | [] => [[]]
  | c :: cs =>
    if c = sep then [] :: splitOnChar sep cs
    else
      match splitOnChar sep cs with
      | [] => [[c]]
      | p :: ps => (c :: p) :: ps

/-! ## `src/utils.rs` -/

/-- `NaiveTime::from_hms_opt(0,0,0)` as nanoseconds since local midnight. -/
def morning_low : Nat := 0

/-- `NaiveTime::from_hms_opt(8,0,0)` as nanoseconds since local midnight. -/
def morning_high : Nat := 8 * 3600 * 1000000000

/-- `NaiveTime::from_hms_opt(8,0,0)`, the afternoon lower bound. -/
def afternoon_low : Nat := 8 * 3600 * 1000000000

/-- `NaiveTime::from_hms_opt(16,0,0)` as nanoseconds since local midnight. -/
def afternoon_high : Nat := 16 * 3600 * 1000000000

/-- `utils::time_of_day`, with the sampled local clock time passed in as
nanoseconds since midnight (chrono `NaiveTime` compares by that quantity). -/
def time_of_day (tod : Nat) : String :=
  if morning_low ≤ tod ∧ tod < morning_high then "morning"
  else if afternoon_low ≤ tod ∧ tod < afternoon_high then "afternoon"
  else "evening"

/-- `utils::upcase`: capitalize the first character (ASCII model of
`char::to_uppercase`). -/
def upcase (s : List Char) : List Char :=
  match s with
  | [] => []
  | c :: cs => c.toUpper :: cs

/-- `utils::slugify_title`: lowercase, remove characters that are not
alphanumeric, space or hyphen, then turn spaces into hyphens (ASCII model
of the `char` classifiers). -/
def slugify_title (title : List Char) : List Char :=
  ((title.map Char.toLower).filter
    (fun c => c.isAlphanum || c = ' ' || c = '-')).map
    (fun c => if c = ' ' then '-' else c)

set_option linter.unreachableTactic false
set_option linter.unnecessarySeqFocus false
set_option linter.unusedTactic false

/-- Claim C10: `time_of_day` is total on clock times and returns exactly one
of "morning" (iff the time is in [00:00:00, 08:00:00)), "afternoon" (iff in
[08:00:00, 16:00:00)) and "evening" (all other times). -/
theorem time_of_day_classifies (t : Nat) :
    (time_of_day t = "morning" ∨ time_of_day t = "afternoon" ∨
      time_of_day t = "evening") ∧
    (time_of_day t = "morning" ↔ t < 8 * 3600 * 1000000000) ∧
    (time_of_day t = "afternoon" ↔
      8 * 3600 * 1000000000 ≤ t ∧ t < 16 * 3600 * 1000000000) ∧
    (time_of_day t = "evening" ↔ 16 * 3600 * 1000000000 ≤ t) := by
  unfold time_of_day morning_low morning_high afternoon_low afternoon_high
  split
  · rename_i h
    refine ⟨Or.inl rfl, ?_, ?_, ?_⟩ <;> simp_all <;> omega
  · split
    · rename_i h1 h2
      refine ⟨Or.inr (Or.inl rfl), ?_, ?_, ?_⟩ <;> simp_all <;> omega
    · rename_i h1 h2
      refine ⟨Or.inr (Or.inr rfl), ?_, ?_, ?_⟩ <;> simp_all <;> omega

/-! ## `src/main.rs` data model and the result normalizer -/

/-- `main.rs` `NamedEntity`. -/
structure NamedEntity where
  name : String
  whatIsThisEntity : String
  whyIsThisEntityRelevantToTheArticle : String
deriving DecidableEq

/-- `main.rs` `ImportantDate`. -/
structure ImportantDate where
  dateMentionedInArticle : String
  descriptionOfWhyDateIsRelevant : String
deriving DecidableEq

/-- `main.rs` `ImportantTimeframe`. -/
structure ImportantTimeframe where
  approximateTimeFrameStart : String
  approximateTimeFrameEnd : String
  descriptionOfWhyTimeFrameIsRelevant : String
deriving DecidableEq

/-- `main.rs` `AwfulNewsArticle` (the binary's variant, without
category/tags). -/
structure AwfulNewsArticle where
  source : Option String
  dateOfPublication : String
  timeOfPublication : String
  title : String
  summaryOfNewsArticle : String
  keyTakeAways : List String
  namedEntities : List NamedEntity
  importantDates : List ImportantDate
  importantTimeframes : List ImportantTimeframe
  content : Option String
deriving DecidableEq

/-- Worker of `uniqueBy`: itertools `unique_by` keeps an element iff its key
has not been seen before, threading the set of seen keys. -/
def uniqueByAux {α β : Type} [DecidableEq β] (f : α → β) (seen : List β) :
    List α → List α
  | [] => []
  | a :: as =>
    if f a ∈ seen then uniqueByAux f seen as
    else a :: uniqueByAux f (f a :: seen) as

/-- Model of itertools `Itertools::unique_by` (and `unique`, via `f = id`):
first occurrence of each key is kept, in order. -/
def uniqueBy {α β : Type} [DecidableEq β] (f : α → β) (l : List α) : List α :=
  uniqueByAux f [] l

/-- Specification-side deduplication, in the words of the spec: keep the
first occurrence in its original position and drop all later elements with
the same key. -/
def keepFirstBy {α β : Type} [DecidableEq β] (f : α → β) : List α → List α
  | [] => []
  | a :: as => a :: keepFirstBy f (as.filter (fun x => decide (f x ≠ f a)))
termination_by l => l.length
decreasing_by
  simp only [List.length_cons]
  have := List.length_filter_le (fun x => decide (f x ≠ f a)) as
  omega

/-- The dedup block of `main.rs` (lines 279–298): normalize the four
collections of a successfully parsed article. -/
def dedupArticle (a : AwfulNewsArticle) : AwfulNewsArticle :=
  { a with
    namedEntities := uniqueBy (fun e => e.name) a.namedEntities
    importantDates :=
      uniqueBy (fun e => e.descriptionOfWhyDateIsRelevant) a.importantDates
    importantTimeframes :=
      uniqueBy (fun e => e.descriptionOfWhyTimeFrameIsRelevant)
        a.importantTimeframes
    keyTakeAways := uniqueBy id a.keyTakeAways }

theorem uniqueByAux_eq_keepFirstBy {α β : Type} [DecidableEq β] (f : α → β)
    (l : List α) : ∀ seen : List β,
    uniqueByAux f seen l = keepFirstBy f (l.filter (fun x => decide (f x ∉ seen))) := by
  induction l with
  | nil => intro seen; simp [uniqueByAux, keepFirstBy]
  | cons a as ih =>
    intro seen
    by_cases h : f a ∈ seen
    · simp only [uniqueByAux, if_pos h, List.filter_cons]
      have : (decide (f a ∉ seen)) = false := by simp [h]
      rw [this]
      simp only [Bool.false_eq_true, if_false]
      exact ih seen
    · simp only [uniqueByAux, if_neg h, List.filter_cons]
      have : (decide (f a ∉ seen)) = true := by simp [h]
      rw [this]
      simp only [if_true]
      rw [keepFirstBy]
      congr 1
      rw [ih (f a :: seen), List.filter_filter]
      have hf : (fun x => decide (f x ∉ f a :: seen)) =
          (fun x => decide (f x ≠ f a) && decide (f x ∉ seen)) := by
        funext x
        simp [List.mem_cons, not_or]
      rw [hf]

theorem uniqueBy_eq_keepFirstBy {α β : Type} [DecidableEq β] (f : α → β)
    (l : List α) : uniqueBy f l = keepFirstBy f l := by
  rw [uniqueBy, uniqueByAux_eq_keepFirstBy]
  congr 1
  simp

/-- Claim C5: normalization deduplicates `namedEntities` by entity name,
`importantDates` and `importantTimeframes` by their relevance-description
field, and `keyTakeAways` by exact string equality, keeping the first
occurrence in place and dropping later duplicates; entities named
`[A, A, B]` with differing detail text yield `[A, B]`, and takeaways
`["x","x","y"]` yield `["x","y"]`. -/
theorem dedupArticle_keeps_first_occurrences :
    (∀ a : AwfulNewsArticle,
      (dedupArticle a).namedEntities =
        keepFirstBy (fun e => e.name) a.namedEntities ∧
      (dedupArticle a).importantDates =
        keepFirstBy (fun e => e.descriptionOfWhyDateIsRelevant)
          a.importantDates ∧
      (dedupArticle a).importantTimeframes =
        keepFirstBy (fun e => e.descriptionOfWhyTimeFrameIsRelevant)
          a.importantTimeframes ∧
      (dedupArticle a).keyTakeAways = keepFirstBy id a.keyTakeAways ∧
      (dedupArticle a).source = a.source ∧
      (dedupArticle a).title = a.title) ∧
    (dedupArticle
      { source := none, dateOfPublication := "", timeOfPublication := "",
        title := "", summaryOfNewsArticle := "",
        keyTakeAways := ["x", "x", "y"],
        namedEntities :=
          [⟨"A", "detail one", "rel one"⟩, ⟨"A", "detail two", "rel two"⟩,
            ⟨"B", "detail three", "rel three"⟩],
        importantDates := [], importantTimeframes := [],
        content := none }).namedEntities =
      [⟨"A", "detail one", "rel one"⟩, ⟨"B", "detail three", "rel three"⟩] ∧
    (dedupArticle
      { source := none, dateOfPublication := "", timeOfPublication := "",
        title := "", summaryOfNewsArticle := "",
        keyTakeAways := ["x", "x", "y"],
        namedEntities := [], importantDates := [], importantTimeframes := [],
        content := none }).keyTakeAways = ["x", "y"] := by
  refine ⟨fun a => ⟨?_, ?_, ?_, ?_, rfl, rfl⟩, by decide, by decide⟩ <;>
    simp [dedupArticle, uniqueBy_eq_keepFirstBy]

/-! ## `src/api.rs`: the retry/backoff wrapper -/

/-- The retry loop of `RetryAsk::ask`.  `inner n` is the result of the
`n`-th call of the wrapped `ask` (0-indexed); `jit n` is the RNG draw used
before the `n`-th retry, reduced mod 251 to model
`thread_rng().gen_range(0..=250)`.  Durations are in milliseconds; `1 <<
(attempt-1)` is `2 ^ (attempt-1)` (the saturating Duration multiply cannot
change the subsequent `min` with `max_delay` at any reachable value).
Returns (result, list of slept delays in ms, number of inner calls). -/
def retryLoop {E A : Type} (inner : Nat → Except E A) (jit : Nat → Nat)
    (maxRetries baseMs maxDelayMs : Nat) (attempt : Nat) :
    Except E A × List Nat × Nat :=
  match inner attempt with
  | .ok a => (.ok a, [], 1)
  | .error e =>
    if h : attempt + 1 > maxRetries then (.error e, [], 1)
    else
      let delay := min (baseMs * 2 ^ attempt) maxDelayMs + jit (attempt + 1) % 251
      let r := retryLoop inner jit maxRetries baseMs maxDelayMs (attempt + 1)
      (r.1, delay :: r.2.1, r.2.2 + 1)
termination_by maxRetries + 1 - attempt
decreasing_by omega

/-- `RetryAsk::ask`: run the retry loop from attempt counter 0. -/
def retryAsk {E A : Type} (inner : Nat → Except E A) (jit : Nat → Nat)
    (maxRetries baseMs maxDelayMs : Nat) : Except E A × List Nat × Nat :=
  retryLoop inner jit maxRetries baseMs maxDelayMs 0

/-- `api::ask_with_backoff`: `RetryAsk::new(client, 5, 1s)` with the fixed
30s `max_delay`. -/
def ask_with_backoff {E : Type} (inner : Nat → Except E String)
    (jit : Nat → Nat) : Except E String × List Nat × Nat :=
  retryAsk inner jit 5 1000 30000

theorem retryLoop_success {E A : Type} (inner : Nat → Except E A)
    (jit : Nat → Nat) (maxRetries baseMs maxDelayMs k : Nat) (a : A)
    (hk : k ≤ maxRetries) (hfail : ∀ i, i < k → ∃ e, inner i = .error e)
    (hok : inner k = .ok a) :
    ∀ j, j ≤ k →
      retryLoop inner jit maxRetries baseMs maxDelayMs j =
        (.ok a,
          (List.range' (j + 1) (k - j)).map
            (fun i => min (baseMs * 2 ^ (i - 1)) maxDelayMs + jit i % 251),
          k - j + 1) := by
  suffices h : ∀ n j, j ≤ k → k - j = n →
      retryLoop inner jit maxRetries baseMs maxDelayMs j =
        (.ok a,
          (List.range' (j + 1) (k - j)).map
            (fun i => min (baseMs * 2 ^ (i - 1)) maxDelayMs + jit i % 251),
          k - j + 1) by
    intro j hj
    exact h (k - j) j hj rfl
  intro n
  induction n with
  | zero =>
    intro j hj hn
    have : j = k := by omega
    subst this
    rw [retryLoop, hok]
    simp
  | succ n ih =>
    intro j hj hn
    have hjk : j < k := by omega
    obtain ⟨e, he⟩ := hfail j hjk
    rw [retryLoop, he]
    have hno : ¬ j + 1 > maxRetries := by omega
    simp only [dif_neg hno]
    have hrec := ih (j + 1) (by omega) (by omega)
    rw [hrec]
    have hr : List.range' (j + 1) (k - j) =
        (j + 1) :: List.range' (j + 2) (k - (j + 1)) := by
      have : k - j = (k - (j + 1)) + 1 := by omega
      rw [this, List.range'_succ]
    rw [hr]
    simp only [List.map_cons]
    refine congrArg _ ?_
    have : j + 1 - 1 = j := by omega
    rw [this]
    have : k - (j + 1) + 1 + 1 = k - j + 1 := by omega
    rw [this]

theorem retryLoop_failure {E A : Type} (inner : Nat → Except E A)
    (jit : Nat → Nat) (maxRetries baseMs maxDelayMs : Nat) (errs : Nat → E)
    (hfail : ∀ i, i ≤ maxRetries → inner i = .error (errs i)) :
    ∀ j, j ≤ maxRetries →
      (retryLoop inner jit maxRetries baseMs maxDelayMs j).1 =
        .error (errs maxRetries) ∧
      (retryLoop inner jit maxRetries baseMs maxDelayMs j).2.2 =
        maxRetries + 1 - j := by
  suffices h : ∀ n j, j ≤ maxRetries → maxRetries - j = n →
      (retryLoop inner jit maxRetries baseMs maxDelayMs j).1 =
        .error (errs maxRetries) ∧
      (retryLoop inner jit maxRetries baseMs maxDelayMs j).2.2 =
        maxRetries + 1 - j by
    intro j hj
    exact h (maxRetries - j) j hj rfl
  intro n
  induction n with
  | zero =>
    intro j hj hn
    have hje : j = maxRetries := by omega
    rw [retryLoop, hfail j hj]
    simp only [dif_pos (show j + 1 > maxRetries by omega)]
    exact ⟨by rw [hje], by omega⟩
  | succ n ih =>
    intro j hj hn
    have hjm : j < maxRetries := by omega
    rw [retryLoop, hfail j (by omega)]
    simp only [dif_neg (show ¬ j + 1 > maxRetries by omega)]
    have hrec := ih (j + 1) (by omega) (by omega)
    exact ⟨hrec.1, by rw [hrec.2]; omega⟩

/-- Claim C2: if the inner `Ask` fails exactly `k` times and then succeeds
with `k ≤ max_retries`, `RetryAsk::ask` returns the inner success value
after `k + 1` inner calls, and the delay slept before retry attempt `i`
equals `min(base_delay · 2^(i-1), max_delay)` plus a jitter in `[0, 250]`
milliseconds; if every attempt up to `max_retries` fails, the wrapper
propagates the last inner error after `max_retries + 1` calls.
`ask_with_backoff` instantiates the wrapper at the defaults
`max_retries = 5`, `base_delay = 1s`, `max_delay = 30s`. -/
theorem retryAsk_backoff_behavior {E A : Type} (inner : Nat → Except E A)
    (jit : Nat → Nat) (maxRetries baseMs maxDelayMs k : Nat) (a : A)
    (errs : Nat → E) :
    (k ≤ maxRetries → (∀ i, i < k → ∃ e, inner i = .error e) →
      inner k = .ok a →
      retryAsk inner jit maxRetries baseMs maxDelayMs =
        (.ok a,
          (List.range' 1 k).map
            (fun i => min (baseMs * 2 ^ (i - 1)) maxDelayMs + jit i % 251),
          k + 1) ∧
      ∀ i, jit i % 251 ≤ 250) ∧
    ((∀ i, i ≤ maxRetries → inner i = .error (errs i)) →
      (retryAsk inner jit maxRetries baseMs maxDelayMs).1 =
        .error (errs maxRetries) ∧
      (retryAsk inner jit maxRetries baseMs maxDelayMs).2.2 =
        maxRetries + 1) ∧
    (∀ (inn : Nat → Except E String) (j : Nat → Nat),
      ask_with_backoff inn j = retryAsk inn j 5 1000 30000) := by
  refine ⟨fun hk hfail hok => ?_, fun hfail => ?_, fun _ _ => rfl⟩
  · constructor
    · have := retryLoop_success inner jit maxRetries baseMs maxDelayMs k a
        hk hfail hok 0 (Nat.zero_le _)
      rw [retryAsk, this]
      simp
    · intro i
      have : i % 251 < 251 := Nat.mod_lt _ (by omega)
      omega
  · have := retryLoop_failure inner jit maxRetries baseMs maxDelayMs errs
      hfail 0 (Nat.zero_le _)
    exact ⟨this.1, by rw [retryAsk, this.2]; omega⟩

/-- Witness for C2 at a concrete instance: the inner call fails once and
then succeeds; defaults of `ask_with_backoff`. -/
theorem retryAsk_backoff_behavior_witness :
    (fun n => if n = 0 then (.error "boom" : Except String Nat) else .ok 7) 1
        = .ok 7 ∧
    retryAsk (fun n => if n = 0 then (.error "boom" : Except String Nat)
        else .ok 7) (fun _ => 13) 5 1000 30000 =
      (.ok 7, [min (1000 * 2 ^ 0) 30000 + 13 % 251], 2) := by
  refine ⟨rfl, ?_⟩
  have h := (retryAsk_backoff_behavior
    (fun n => if n = 0 then (.error "boom" : Except String Nat) else .ok 7)
    (fun _ => 13) 5 1000 30000 1 7 (fun _ => "boom")).1
    (by omega) (by intro i hi; exact ⟨"boom", by interval_cases i <;> rfl⟩)
    rfl
  rw [h.1]
  rfl

/-! ## `src/main.rs`: per-article enrichment flow and top-level control -/

/-- Model of `serde_json::Error` as far as the pipeline inspects it:
`classify() == Category::Eof` iff `isEof`. -/
structure ParseErr where
  isEof : Bool
deriving DecidableEq

/-- `utils::looks_truncated` / `main.rs::looks_truncated`: the parse error
signals an unexpected end of input. -/
def looks_truncated (e : ParseErr) : Bool := e.isEof

/-- `main.rs` / `models.rs` `NewsArticle` (a raw article). -/
structure NewsArticle where
  source : String
  content : String
deriving DecidableEq

/-- The per-article body of main's analyze loop (main.rs lines 249–374):
first `ask_with_backoff` call, quarantine (a logged side effect), parse;
on an EOF-classified parse failure one re-ask and, if the re-ask succeeds,
one re-parse; a parsed article gets `source`/`content` set and is
deduplicated.  `asks j` is the result of the `j`-th `ask_with_backoff`
call for this article; `parse` is the schema parse oracle.  Returns
(article pushed to the front page if any, number of `ask_with_backoff`
calls, number of parse attempts). -/
def processOne {E : Type} (src content : String)
    (asks : Nat → Except E String)
    (parse : String → Except ParseErr AwfulNewsArticle) :
    Option AwfulNewsArticle × Nat × Nat :=
  match asks 0 with
  | .error _ => (none, 1, 0)
  | .ok r1 =>
    match parse r1 with
    | .ok art =>
      (some (dedupArticle { art with source := some src, content := some content }),
        1, 1)
    | .error e =>
      if looks_truncated e then
        match asks 1 with
        | .ok r2 =>
          match parse r2 with
          | .ok art =>
            (some (dedupArticle
              { art with source := some src, content := some content }), 2, 2)
          | .error _ => (none, 2, 2)
        | .error _ => (none, 2, 1)
      else (none, 1, 1)

/-- Counterexample to claim C3 as stated: a run in which the first
enrichment call succeeds, the response fails parsing with the EOF class,
the single re-ask is issued but itself fails — parsing is then attempted
only once in total, not re-attempted. -/
theorem truncation_retry_counterexample :
    (processOne "s" "c"
      (fun n => if n = 0 then (.ok "x" : Except String String)
        else .error "network")
      (fun _ => .error ⟨true⟩)).2.1 = 2 ∧
    (processOne "s" "c"
      (fun n => if n = 0 then (.ok "x" : Except String String)
        else .error "network")
      (fun _ => .error ⟨true⟩)).2.2 = 1 ∧
    (1 : Nat) ≠ 2 := by
  refine ⟨rfl, rfl, by omega⟩

/-- Claim C3 (amended): when the first enrichment call succeeds and its
response fails schema parsing, an EOF-classified failure triggers exactly
one additional `ask_with_backoff` call, with parsing re-attempted exactly
once if that call returns a response (and not at all if it fails, the
article then being skipped); any other parse-error class triggers zero
additional calls and the article is skipped. -/
theorem truncation_retry_behavior {E : Type} (src content : String)
    (asks : Nat → Except E String)
    (parse : String → Except ParseErr AwfulNewsArticle) (r1 : String)
    (e : ParseErr) (h0 : asks 0 = .ok r1) (hp : parse r1 = .error e) :
    (e.isEof = true →
      (processOne src content asks parse).2.1 = 2 ∧
      (∀ r2, asks 1 = .ok r2 →
        (processOne src content asks parse).2.2 = 2) ∧
      (∀ e2, asks 1 = .error e2 →
        (processOne src content asks parse).2.2 = 1 ∧
        (processOne src content asks parse).1 = none)) ∧
    (e.isEof = false →
      (processOne src content asks parse).2.1 = 1 ∧
      (processOne src content asks parse).2.2 = 1 ∧
      (processOne src content asks parse).1 = none) := by
  constructor
  · intro heof
    have ht : looks_truncated e = true := heof
    constructor
    · rw [processOne, h0]
      simp only [hp, ht, if_true]
      cases h1 : asks 1 with
      | ok r2 =>
        dsimp only
        cases parse r2 <;> rfl
      | error e2 => rfl
    · constructor
      · intro r2 h1
        rw [processOne, h0]
        simp only [hp, ht, if_true, h1]
        cases parse r2 <;> trivial
      · intro e2 h1
        rw [processOne, h0]
        simp only [hp, ht, if_true, h1]
        exact ⟨by trivial, by trivial⟩
  · intro heof
    have ht : looks_truncated e = false := heof
    rw [processOne, h0]
    simp only [hp, ht, Bool.false_eq_true, if_false]
    exact ⟨by trivial, by trivial, by trivial⟩

/-- Witness for C3 (amended) at a concrete instance: EOF failure with a
successful re-ask whose response parses. -/
theorem truncation_retry_behavior_witness :
    (processOne "s" "c"
      (fun n => if n = 0 then (.ok "bad" : Except String String) else .ok "good")
      (fun r => if r = "bad" then .error ⟨true⟩
        else .ok { source := none, dateOfPublication := "", timeOfPublication := "",
                   title := "", summaryOfNewsArticle := "", keyTakeAways := [],
                   namedEntities := [], importantDates := [],
                   importantTimeframes := [], content := none })).2.1 = 2 ∧
    (processOne "s" "c"
      (fun n => if n = 0 then (.ok "bad" : Except String String) else .ok "good")
      (fun r => if r = "bad" then .error ⟨true⟩
        else .ok { source := none, dateOfPublication := "", timeOfPublication := "",
                   title := "", summaryOfNewsArticle := "", keyTakeAways := [],
                   namedEntities := [], importantDates := [],
                   importantTimeframes := [], content := none })).2.2 = 2 := by
  have h := truncation_retry_behavior (E := String) "s" "c"
    (fun n => if n = 0 then (.ok "bad" : Except String String) else .ok "good")
    (fun r => if r = "bad" then .error ⟨true⟩
      else .ok { source := none, dateOfPublication := "", timeOfPublication := "",
                 title := "", summaryOfNewsArticle := "", keyTakeAways := [],
                 namedEntities := [], importantDates := [],
                 importantTimeframes := [], content := none })
    "bad" ⟨true⟩ rfl (by rfl)
  exact ⟨(h.1 rfl).1, (h.1 rfl).2.1 "good" rfl⟩

/-- Sequential per-URL fetch collection of `main` (the
`.then(..).filter(..).map(unwrap)` stream): one raw article per URL whose
fetch oracle returned `Ok(Some(..))`; errors and no-content URLs are
dropped. -/
def collect_fetches (fetch : String → Except String (Option NewsArticle))
    (urls : List String) : List NewsArticle :=
  urls.filterMap (fun u =>
    match fetch u with
    | .ok (some a) => some a
    | .ok none => none
    | .error _ => none)

/-- The analyze loop of `main`: each article is processed independently by
`processOne` (with its own slice `asks i` of the ask oracle); parsed
articles are pushed onto the front page, all failures are logged and
skipped.  The incremental JSON/markdown writes inside the loop only log
their errors, so they do not appear in the result. -/
def analyze_articles (asks : Nat → Nat → Except String String)
    (parse : String → Except ParseErr AwfulNewsArticle)
    (articles : List NewsArticle) : List AwfulNewsArticle :=
  articles.enum.filterMap
    (fun p => (processOne p.2.source p.2.content (asks p.1) parse).1)

/-- Oracle environment for one run of `main`: each field is the outcome of
the corresponding effect in program order. -/
structure MainEnv where
  writable_json_dir : Except String Unit
  cnn_index : Except String (List String)
  npr_index : Except String (List String)
  cnn_fetch : String → Except String (Option NewsArticle)
  npr_fetch : String → Except String (Option NewsArticle)
  template_load : Except String Unit
  config_dir_res : Except String Unit
  config_load : Except String Unit
  asks : Nat → Nat → Except String String
  parse : String → Except ParseErr AwfulNewsArticle

/-- Outcome of a run of `main`: normal completion, an error propagated out
of `main` with `?`, or a panic (the `.unwrap()` on config loading). -/
inductive RunOutcome
  | completed
  | aborted (e : String)
  | panicked
deriving DecidableEq

/-- Control-flow model of `main` (main.rs lines 96–449): the writable-dir
check, the two index-page fetches, the template/config loading all use `?`
(or `.unwrap()`) and abort the run; per-URL fetches, per-article
enrichment/parsing, and all output writes (JSON snapshots, markdown,
the three index files) log failures and continue. -/
def mainRun (env : MainEnv) : RunOutcome :=
  match env.writable_json_dir with
  | .error e => .aborted e
  | .ok _ =>
    match env.cnn_index with
    | .error e => .aborted e
    | .ok cnn_urls =>
      match env.npr_index with
      | .error e => .aborted e
      | .ok npr_urls =>
        let cnn_articles := collect_fetches env.cnn_fetch cnn_urls
        let npr_articles := collect_fetches env.npr_fetch npr_urls
        let articles := cnn_articles ++ npr_articles
        match env.template_load with
        | .error e => .aborted e
        | .ok _ =>
          match env.config_dir_res with
          | .error e => .aborted e
          | .ok _ =>
            match env.config_load with
            | .error _ => .panicked
            | .ok _ =>
              let _front_page := analyze_articles env.asks env.parse articles
              .completed

/-- Counterexample to claim C7 as stated: a run whose primary JSON output
directory is writable can still abort — a network failure on the CNN
index-page fetch propagates out of `main` via `?`. -/
theorem mainRun_aborts_beyond_startup :
    (MainEnv.mk (.ok ()) (.error "cnn index fetch failed") (.ok [])
        (fun _ => .ok none) (fun _ => .ok none) (.ok ()) (.ok ()) (.ok ())
        (fun _ _ => .ok "") (fun _ => .error ⟨false⟩)).writable_json_dir
      = .ok () ∧
    mainRun (MainEnv.mk (.ok ()) (.error "cnn index fetch failed") (.ok [])
        (fun _ => .ok none) (fun _ => .ok none) (.ok ()) (.ok ()) (.ok ())
        (fun _ _ => .ok "") (fun _ => .error ⟨false⟩))
      = .aborted "cnn index fetch failed" :=
  ⟨rfl, rfl⟩

/-- Claim C7 (amended): the run completes iff the writable-directory
precondition and the four other startup-phase effects (CNN index fetch,
NPR index fetch, template load, config-dir resolution and config load)
all succeed; an unwritable output directory aborts with its own error
before any fetch, and no per-URL fetch outcome, per-article
enrichment/parse outcome, or output write affects whether the run
completes. -/
theorem mainRun_abort_characterization (env : MainEnv) :
    (mainRun env = .completed ↔
      ((∃ u, env.writable_json_dir = .ok u) ∧
        (∃ us, env.cnn_index = .ok us) ∧
        (∃ us, env.npr_index = .ok us) ∧
        (∃ u, env.template_load = .ok u) ∧
        (∃ u, env.config_dir_res = .ok u) ∧
        (∃ u, env.config_load = .ok u))) ∧
    (∀ e, env.writable_json_dir = .error e → mainRun env = .aborted e) := by
  obtain ⟨w, ci, ni, cf, nf, tl, cd, cl, asks, parse⟩ := env
  constructor
  · cases w with
    | error e => simp [mainRun]
    | ok u =>
      cases ci with
      | error e => simp [mainRun]
      | ok us =>
        cases ni with
        | error e => simp [mainRun]
        | ok us2 =>
          cases tl with
          | error e => simp [mainRun]
          | ok u2 =>
            cases cd with
            | error e => simp [mainRun]
            | ok u3 =>
              cases cl with
              | error e => simp [mainRun]
              | ok u4 => simp [mainRun]
  · intro e he
    cases w with
    | error e2 =>
      cases he
      rfl
    | ok u => cases he

/-! ## `src/scrapers/npr.rs`, `src/scrapers/bbcnews.rs`: adapters -/

/-- `models.rs::NewsArticle` with the text as character lists, used by the
adapter embeddings. -/
structure NewsArticleChars where
  source : List Char
  content : List Char
deriving DecidableEq

/-- The per-outcome step shared by every `fetch_articles` loop:
`Ok(Some(article))` is kept, `Ok(None)` (no content) and `Err` (fetch
failure) are logged and dropped. -/
def fetch_step {E A : Type} (r : Except E (Option A)) : Option A :=
  match r with
  | .ok (some a) => some a
  | .ok none => none
  | .error _ => none

/-- `npr.rs::fetch_articles` (also `cnn.rs` and the copies in `main.rs`):
a sequential `.then(..)` stream over the URLs followed by
`.filter(|o| o.is_some()).map(|o| o.unwrap())` — modelled with the list of
per-URL fetch outcomes in URL order (`reduceOption` is the
filter-somes-then-unwrap composition). -/
def fetch_articles_seq {E A : Type} (outcomes : List (Except E (Option A))) :
    List A :=
  ((outcomes.map fetch_step).filter (fun o => o.isSome)).reduceOption

/-- `bbcnews.rs::fetch_articles`: `buffer_unordered(8).filter_map(..)` —
the outcomes arrive in an arbitrary completion order `completed`, a
permutation of the per-URL outcomes. -/
def fetch_articles_unordered {E A : Type}
    (completed : List (Except E (Option A))) : List A :=
  completed.filterMap fetch_step

theorem fetch_articles_seq_eq_filterMap {E A : Type}
    (outcomes : List (Except E (Option A))) :
    fetch_articles_seq outcomes = outcomes.filterMap fetch_step := by
  induction outcomes with
  | nil => rfl
  | cons r t ih =>
    rw [fetch_articles_seq, List.map_cons, List.filter_cons] at *
    cases hr : fetch_step r with
    | some a =>
      simp only [hr, Option.isSome_some, if_true, List.reduceOption_cons_of_some,
        List.filterMap_cons_some hr]
      rw [← ih]
    | none =>
      simp only [hr, Option.isSome_none, Bool.false_eq_true, if_false,
        List.filterMap_cons_none hr]
      rw [← ih]

theorem length_filterMap_eq_countP {E A : Type}
    (outcomes : List (Except E (Option A))) :
    (outcomes.filterMap fetch_step).length =
      outcomes.countP (fun r => (fetch_step r).isSome) := by
  induction outcomes with
  | nil => rfl
  | cons r t ih =>
    cases hr : fetch_step r with
    | some a =>
      rw [List.filterMap_cons_some hr, List.countP_cons]
      simp [hr, ih]
    | none =>
      rw [List.filterMap_cons_none hr, List.countP_cons]
      simp [hr, ih]

/-- Claim C6: every `fetch_articles` batch yields exactly one raw article
per URL whose fetch returned `Ok(Some(..))` — in URL order for the
sequential adapters, as a permutation of that for the unordered BBC
adapter — never raises an error (the result is a plain list), and
failing URLs are dropped without affecting the rest; in particular 5
outcomes with fetch 3 erroring and fetch 4 yielding no content produce
exactly 3 articles. -/
theorem fetch_articles_isolates_failures {E A : Type} :
    (∀ outcomes : List (Except E (Option A)),
      fetch_articles_seq outcomes = outcomes.filterMap fetch_step ∧
      (fetch_articles_seq outcomes).length =
        outcomes.countP (fun r => (fetch_step r).isSome)) ∧
    (∀ outcomes completed : List (Except E (Option A)),
      completed.Perm outcomes →
      (fetch_articles_unordered completed).Perm
        (outcomes.filterMap fetch_step)) ∧
    (fetch_articles_seq
        [.ok (some (NewsArticleChars.mk "u1".toList "c1".toList)),
         .ok (some (NewsArticleChars.mk "u2".toList "c2".toList)),
         (.error "network" : Except String (Option NewsArticleChars)),
         .ok none,
         .ok (some (NewsArticleChars.mk "u5".toList "c5".toList))] =
      [NewsArticleChars.mk "u1".toList "c1".toList,
       NewsArticleChars.mk "u2".toList "c2".toList,
       NewsArticleChars.mk "u5".toList "c5".toList]) := by
  refine ⟨fun outcomes => ⟨fetch_articles_seq_eq_filterMap outcomes, ?_⟩,
    fun outcomes completed hperm => ?_, rfl⟩
  · rw [fetch_articles_seq_eq_filterMap]
    exact length_filterMap_eq_countP outcomes
  · exact hperm.filterMap fetch_step

/-- Witness for C6 at a concrete instance: an unordered completion that is
a (reversed) permutation of the outcome list. -/
theorem fetch_articles_isolates_failures_witness :
    ([(.error "e" : Except String (Option NewsArticleChars)),
      .ok (some (NewsArticleChars.mk "a".toList "x".toList))].Perm
      [.ok (some (NewsArticleChars.mk "a".toList "x".toList)),
       (.error "e" : Except String (Option NewsArticleChars))]) ∧
    (fetch_articles_unordered
      [(.error "e" : Except String (Option NewsArticleChars)),
       .ok (some (NewsArticleChars.mk "a".toList "x".toList))]).Perm
      ([.ok (some (NewsArticleChars.mk "a".toList "x".toList)),
        (.error "e" : Except String (Option NewsArticleChars))].filterMap
          fetch_step) := by
  have hperm : ([(.error "e" : Except String (Option NewsArticleChars)),
      .ok (some (NewsArticleChars.mk "a".toList "x".toList))].Perm
      [.ok (some (NewsArticleChars.mk "a".toList "x".toList)),
       (.error "e" : Except String (Option NewsArticleChars))]) :=
    List.Perm.swap _ _ _
  exact ⟨hperm,
    (fetch_articles_isolates_failures (E := String)
      (A := NewsArticleChars)).2.1 _ _ hperm⟩

/-- Base URL of the NPR text site (`npr.rs::index_articles`). -/
def nprOrigin : List Char := "https://text.npr.org".toList

/-- Model of the `url` crate's `Url::join` against the base
`https://text.npr.org` (whose path is "/"), restricted to the href shapes
relevant here: scheme-absolute http(s) hrefs are taken as-is,
protocol-relative hrefs get the base scheme, root-relative hrefs get the
base origin, anything else resolves against the base path "/". -/
def url_join_npr (href : List Char) : Option (List Char) :=
  if "https://".toList.isPrefixOf href ∨ "http://".toList.isPrefixOf href then
    some href
  else if "//".toList.isPrefixOf href then some ("https:".toList ++ href)
  else if "/".toList.isPrefixOf href then some (nprOrigin ++ href)
  else some (nprOrigin ++ "/".toList ++ href)

/-- `npr.rs::index_articles` (and the identical CNN variant), with the
href attributes of the elements matched by the story selector as input:
each href is resolved against the base and pushed — no origin check, no
query/fragment stripping, no deduplication. -/
def npr_index_articles (hrefs : List (List Char)) : List (List Char) :=
  hrefs.filterMap url_join_npr

/-- Counterexample to claim C4 as stated: an NPR index run whose listing
page carries the same href twice returns that URL twice — the returned
collection is not duplicate-free. -/
theorem npr_index_duplicates_counterexample :
    npr_index_articles ["/a".toList, "/a".toList] =
      ["https://text.npr.org/a".toList, "https://text.npr.org/a".toList] ∧
    ¬ (npr_index_articles ["/a".toList, "/a".toList]).Nodup := by
  constructor
  · rfl
  · decide

/-- `bbcnews.rs::normalize_bbc_link`. -/
def normalize_bbc_link (href : List Char) : Option (List Char) :=
  if "https://www.bbc.com/".toList.isPrefixOf href ∨
      "http://www.bbc.com/".toList.isPrefixOf href then
    some href
  else if "/".toList.isPrefixOf href then
    some ("https://www.bbc.com".toList ++ href)
  else none

/-- `bbcnews.rs::is_bbc_article_url`. -/
def is_bbc_article_url (u : List Char) : Bool :=
  "https://www.bbc.com/news/articles/".toList.isPrefixOf u

/-- `bbcnews.rs::harvest_selector_bbc`: walk the strict-selector anchors,
stopping at 20 collected URLs, pushing normalized article URLs not already
present. -/
def harvest_selector_bbc : List (List Char) → List (List Char) → List (List Char)
  | [], urls => urls
  | h :: t, urls =>
    if urls.length ≥ 20 then urls
    else
      match normalize_bbc_link h with
      | some u =>
        if is_bbc_article_url u = true ∧ u ∉ urls then
          harvest_selector_bbc t (urls ++ [u])
        else harvest_selector_bbc t urls
      | none => harvest_selector_bbc t urls

/-- The any-anchor fallback loop of `bbcnews.rs::index_articles` (step 2):
like the strict harvest but breaking right after the push reaches 20. -/
def bbc_anchor_fallback : List (List Char) → List (List Char) → List (List Char)
  | [], urls => urls
  | h :: t, urls =>
    match normalize_bbc_link h with
    | some u =>
      if is_bbc_article_url u = true ∧ u ∉ urls then
        if (urls ++ [u]).length ≥ 20 then urls ++ [u]
        else bbc_anchor_fallback t (urls ++ [u])
      else bbc_anchor_fallback t urls
    | none => bbc_anchor_fallback t urls

/-- Collection loop of `bbcnews.rs::harvest_regex_fallback_bbc`, over the
capture strings of the article-link regex, stopping at 50. -/
def bbc_regex_collect : List (List Char) → List (List Char) → List (List Char)
  | [], out => out
  | h :: t, out =>
    let out2 := match normalize_bbc_link h with
      | some u => if is_bbc_article_url u = true then out ++ [u] else out
      | none => out
    if out2.length ≥ 50 then out2 else bbc_regex_collect t out2

/-- Model of `Vec::dedup`: remove consecutive duplicates. -/
def dedupConsec {α : Type} [DecidableEq α] : List α → List α
  | [] => []
  | a :: t =>
    match t with
    | [] => [a]
    | b :: t2 =>
      if a = b then dedupConsec (b :: t2) else a :: dedupConsec (b :: t2)

/-- Model of `Vec::sort` on strings: sort by the lexicographic order on
character lists (Rust compares strings bytewise; on these ASCII URLs the
orders agree). -/
def sortLex (l : List (List Char)) : List (List Char) :=
  List.insertionSort (· ≤ ·) l

/-- `bbcnews.rs::harvest_regex_fallback_bbc`: collect, sort, dedup,
truncate to 20. -/
def harvest_regex_fallback_bbc (caps : List (List Char)) : List (List Char) :=
  (dedupConsec (sortLex (bbc_regex_collect caps []))).take 20

/-- The merge loop of step 3 of `bbcnews.rs::index_articles`: drain the
regex-fallback URLs into the accumulator, skipping ones already present,
breaking right after the push reaches 20. -/
def bbc_merge_regex : List (List Char) → List (List Char) → List (List Char)
  | [], urls => urls
  | u :: t, urls =>
    if u ∉ urls then
      if (urls ++ [u]).length ≥ 20 then urls ++ [u]
      else bbc_merge_regex t (urls ++ [u])
    else bbc_merge_regex t urls

/-- The `urls` vector of `bbcnews.rs::index_articles` after the three
harvest steps (each fallback runs only while below the 20 cap). -/
def bbc_collected (internalHrefs anyHrefs regexCaps : List (List Char)) :
    List (List Char) :=
  let urls1 := harvest_selector_bbc internalHrefs []
  let urls2 := if urls1.length < 20 then bbc_anchor_fallback anyHrefs urls1
    else urls1
  if urls2.length < 20 then
    bbc_merge_regex (harvest_regex_fallback_bbc regexCaps) urls2
  else urls2

/-- `bbcnews.rs::index_articles` for the single BBC section: strict
selector harvest, any-anchor fallback below 20, regex fallback below 20,
then `all.sort(); all.dedup();`.  Inputs are the href lists of the two
anchor selections and the capture strings of the regex scan. -/
def bbc_index_articles (internalHrefs anyHrefs regexCaps : List (List Char)) :
    List (List Char) :=
  dedupConsec (sortLex (bbc_collected internalHrefs anyHrefs regexCaps))

theorem mem_harvest_selector_bbc (hrefs : List (List Char)) :
    ∀ urls u, u ∈ harvest_selector_bbc hrefs urls →
      u ∈ urls ∨ is_bbc_article_url u = true := by
  induction hrefs with
  | nil => intro urls u hu; exact Or.inl hu
  | cons h t ih =>
    intro urls u hu
    rw [harvest_selector_bbc] at hu
    split at hu
    · exact Or.inl hu
    · split at hu
      · rename_i u' hnorm
        split at hu
        · rename_i hcond
          rcases ih (urls ++ [u']) u hu with hin | hb
          · rcases List.mem_append.1 hin with hl | hr
            · exact Or.inl hl
            · simp only [List.mem_singleton] at hr
              subst hr
              exact Or.inr hcond.1
          · exact Or.inr hb
        · exact ih urls u hu
      · exact ih urls u hu

theorem mem_bbc_anchor_fallback (hrefs : List (List Char)) :
    ∀ urls u, u ∈ bbc_anchor_fallback hrefs urls →
      u ∈ urls ∨ is_bbc_article_url u = true := by
  induction hrefs with
  | nil => intro urls u hu; exact Or.inl hu
  | cons h t ih =>
    intro urls u hu
    rw [bbc_anchor_fallback] at hu
    split at hu
    · rename_i u' hnorm
      split at hu
      · rename_i hcond
        split at hu
        · rcases List.mem_append.1 hu with hl | hr
          · exact Or.inl hl
          · simp only [List.mem_singleton] at hr
            subst hr
            exact Or.inr hcond.1
        · rcases ih (urls ++ [u']) u hu with hin | hb
          · rcases List.mem_append.1 hin with hl | hr
            · exact Or.inl hl
            · simp only [List.mem_singleton] at hr
              subst hr
              exact Or.inr hcond.1
          · exact Or.inr hb
      · exact ih urls u hu
    · exact ih urls u hu

theorem mem_bbc_regex_collect (caps : List (List Char)) :
    ∀ out u, u ∈ bbc_regex_collect caps out →
      u ∈ out ∨ is_bbc_article_url u = true := by
  induction caps with
  | nil => intro out u hu; exact Or.inl hu
  | cons h t ih =>
    intro out u hu
    rw [bbc_regex_collect] at hu
    have step : ∀ v, v ∈ (match normalize_bbc_link h with
        | some u' => if is_bbc_article_url u' = true then out ++ [u'] else out
        | none => out) → v ∈ out ∨ is_bbc_article_url v = true := by
      intro v hv
      split at hv
      · rename_i u' hnorm
        split at hv
        · rename_i hb
          rcases List.mem_append.1 hv with hl | hr
          · exact Or.inl hl
          · simp only [List.mem_singleton] at hr
            subst hr
            exact Or.inr hb
        · exact Or.inl hv
      · exact Or.inl hv
    split at hu
    · exact step u hu
    · rcases ih _ u hu with hin | hb
      · exact step u hin
      · exact Or.inr hb

theorem mem_bbc_merge_regex (more : List (List Char)) :
    ∀ urls u, u ∈ bbc_merge_regex more urls → u ∈ urls ∨ u ∈ more := by
  induction more with
  | nil => intro urls u hu; exact Or.inl hu
  | cons h t ih =>
    intro urls u hu
    rw [bbc_merge_regex] at hu
    split at hu
    · split at hu
      · rcases List.mem_append.1 hu with hl | hr
        · exact Or.inl hl
        · simp only [List.mem_singleton] at hr
          subst hr
          exact Or.inr (List.mem_cons_self _ _)
      · rcases ih (urls ++ [h]) u hu with hin | hm
        · rcases List.mem_append.1 hin with hl | hr
          · exact Or.inl hl
          · simp only [List.mem_singleton] at hr
            subst hr
            exact Or.inr (List.mem_cons_self _ _)
        · exact Or.inr (List.mem_cons_of_mem _ hm)
    · rcases ih urls u hu with hin | hm
      · exact Or.inl hin
      · exact Or.inr (List.mem_cons_of_mem _ hm)

theorem dedupConsec_sublist {α : Type} [DecidableEq α] (l : List α) :
    (dedupConsec l).Sublist l := by
  induction l with
  | nil => exact List.Sublist.refl _
  | cons a t ih =>
    cases t with
    | nil => exact List.Sublist.refl _
    | cons b t2 =>
      rw [dedupConsec]
      split
      · exact List.Sublist.cons _ ih
      · exact List.Sublist.cons₂ _ ih

theorem sorted_dedupConsec_nodup {α : Type} [DecidableEq α] [LinearOrder α]
    (l : List α)
    (hs : l.Sorted (· ≤ ·)) : (dedupConsec l).Nodup := by
  induction l with
  | nil => exact List.nodup_nil
  | cons a t ih =>
    cases t with
    | nil => simp [dedupConsec]
    | cons b t2 =>
      have hle : ∀ x ∈ b :: t2, a ≤ x := (List.sorted_cons.1 hs).1
      have hst : (b :: t2).Sorted (· ≤ ·) := (List.sorted_cons.1 hs).2
      rw [dedupConsec]
      split
      · exact ih hst
      · rename_i hne
        refine List.nodup_cons.2 ⟨?_, ih hst⟩
        intro hmem
        have hmem2 : a ∈ b :: t2 := (dedupConsec_sublist _).mem hmem
        rcases List.mem_cons.1 hmem2 with h1 | h2
        · exact hne h1
        · have hba : b ≤ a := ((List.sorted_cons.1 hst).1) a h2
          have hab : a ≤ b := hle b (List.mem_cons_self _ _)
          exact hne (le_antisymm hab hba)

theorem mem_bbc_collected (internalHrefs anyHrefs regexCaps : List (List Char))
    (u : List Char) (hu : u ∈ bbc_collected internalHrefs anyHrefs regexCaps) :
    is_bbc_article_url u = true := by
  have h1 : ∀ v, v ∈ harvest_selector_bbc internalHrefs [] →
      is_bbc_article_url v = true := by
    intro v hv
    rcases mem_harvest_selector_bbc internalHrefs [] v hv with h | h
    · cases h
    · exact h
  have h2 : ∀ v, v ∈ bbc_anchor_fallback anyHrefs
      (harvest_selector_bbc internalHrefs []) → is_bbc_article_url v = true := by
    intro v hv
    rcases mem_bbc_anchor_fallback anyHrefs _ v hv with h | h
    · exact h1 v h
    · exact h
  have hregex : ∀ v, v ∈ harvest_regex_fallback_bbc regexCaps →
      is_bbc_article_url v = true := by
    intro v hv
    have hsub : v ∈ dedupConsec (sortLex (bbc_regex_collect regexCaps [])) :=
      (List.take_sublist _ _).mem hv
    have hsrt : v ∈ sortLex (bbc_regex_collect regexCaps []) :=
      (dedupConsec_sublist _).mem hsub
    have hcol : v ∈ bbc_regex_collect regexCaps [] :=
      (List.perm_insertionSort _ _).subset hsrt
    rcases mem_bbc_regex_collect regexCaps [] v hcol with h' | h'
    · cases h'
    · exact h'
  have hmerge : ∀ urls, (∀ v, v ∈ urls → is_bbc_article_url v = true) →
      u ∈ bbc_merge_regex (harvest_regex_fallback_bbc regexCaps) urls →
      is_bbc_article_url u = true := by
    intro urls hurls hm
    rcases mem_bbc_merge_regex _ _ u hm with h | h
    · exact hurls u h
    · exact hregex u h
  simp only [bbc_collected] at hu
  split at hu
  · split at hu
    · exact hmerge _ h2 hu
    · exact h2 u hu
  · exact h1 u hu

/-- Claim C4 (amended): the BBC adapter's index discovery returns only
absolute URLs of the form `https://www.bbc.com/news/articles/...` (so on
the accepted origin), and the returned collection contains no duplicate
strings; the NPR (and CNN) adapter resolves every href against its base
producing absolute http(s) URLs, but performs no origin validation, no
query/fragment stripping and no deduplication. -/
theorem index_articles_urls_valid
    (internalHrefs anyHrefs regexCaps : List (List Char)) :
    (∀ u ∈ bbc_index_articles internalHrefs anyHrefs regexCaps,
      is_bbc_article_url u = true) ∧
    (bbc_index_articles internalHrefs anyHrefs regexCaps).Nodup ∧
    (∀ hrefs : List (List Char), ∀ u ∈ npr_index_articles hrefs,
      ("https://".toList <+: u) ∨ ("http://".toList <+: u)) := by
  refine ⟨?_, ?_, ?_⟩
  · intro u hu
    rw [bbc_index_articles] at hu
    have h1 : u ∈ sortLex (bbc_collected internalHrefs anyHrefs regexCaps) :=
      (dedupConsec_sublist _).mem hu
    have h2 : u ∈ bbc_collected internalHrefs anyHrefs regexCaps :=
      (List.perm_insertionSort _ _).subset h1
    exact mem_bbc_collected _ _ _ u h2
  · rw [bbc_index_articles]
    exact sorted_dedupConsec_nodup _ (List.sorted_insertionSort _ _)
  · intro hrefs u hu
    rw [npr_index_articles] at hu
    obtain ⟨h, hmem, hjoin⟩ := List.mem_filterMap.1 hu
    rw [url_join_npr] at hjoin
    split at hjoin
    · rename_i hcond
      cases hjoin
      rcases hcond with hc | hc
      · exact Or.inl (List.isPrefixOf_iff_prefix.1 hc)
      · exact Or.inr (List.isPrefixOf_iff_prefix.1 hc)
    · split at hjoin
      · rename_i hc2
        cases hjoin
        obtain ⟨t, ht⟩ := List.isPrefixOf_iff_prefix.1 hc2
        refine Or.inl ⟨t, ?_⟩
        rw [← ht]
        rfl
      · split at hjoin
        · cases hjoin
          exact Or.inl
            (List.IsPrefix.trans (by decide) (List.prefix_append _ _))
        · cases hjoin
          exact Or.inl
            (List.IsPrefix.trans (by decide) (List.prefix_append _ _))

/-- Model of host extraction in the `url` crate (external dependency):
find "://", take until a path/query/fragment delimiter, lowercase; an
empty host means the URL does not parse. -/
def afterSchemeSep : List Char → Option (List Char)
  | [] => none
  | ':' :: '/' :: '/' :: rest => some rest
  | _ :: t => afterSchemeSep t

/-- `Url::domain()` (model): the lowercased host component. -/
def hostOf (url : List Char) : Option (List Char) :=
  match afterSchemeSep url with
  | none => none
  | some rest =>
    let host := (rest.takeWhile
      (fun c => decide (c ≠ '/' ∧ c ≠ '?' ∧ c ≠ '#'))).map Char.toLower
    if host.isEmpty then none else some host

/-- `npr.rs::fetch_article` body assembly (also the CNN variant): the text
of each selected node is pushed followed by a newline, and the function
always returns `Ok(Some(..))` — its `Ok(None)` arm is dead code.  `texts`
are the joined text contents of the matched headline/body containers. -/
def npr_fetch_article (url : List Char) (texts : List (List Char)) :
    Option NewsArticleChars :=
  some { source := url, content := (texts.map (fun t => t ++ ['\n'])).join }

/-- The candidate-selector loop of `bbcnews.rs::fetch_article`: for each
body-container selector (in order), trim each matched paragraph, drop the
empty ones, and take the first selector with a nonempty part list, joining
with blank lines. -/
def bbc_body : List (List (List Char)) → Option (List Char)
  | [] => none
  | texts :: rest =>
    let parts := (texts.map rustTrim).filter (fun p => !p.isEmpty)
    if parts.isEmpty then bbc_body rest
    else some (List.intercalate "\n\n".toList parts)

/-- The title/published-at header prepending of `bbcnews.rs::fetch_article`. -/
def bbc_prepend_meta (published_dt published_raw : Option (List Char))
    (title body : List Char) : List Char :=
  let c1 := if title.isEmpty then body
    else "Title: ".toList ++ title ++ "\n\n".toList ++ body
  match published_dt with
  | some dt => "Published: ".toList ++ dt ++ "\n\n".toList ++ c1
  | none =>
    match published_raw with
    | some raw => "Published(raw): ".toList ++ raw ++ "\n\n".toList ++ c1
    | none => c1

/-- `bbcnews.rs::fetch_article`: origin/path safety check (a soft `Ok(None)`
rejection), body extraction, header prepending; returns `Ok(None)` unless a
body was found and the content is nonempty. -/
def bbc_fetch_article (url : List Char)
    (published_dt published_raw : Option (List Char)) (title : List Char)
    (candidates : List (List (List Char))) : Option NewsArticleChars :=
  if hostOf url = some "www.bbc.com".toList ∧ is_bbc_article_url url = true then
    match bbc_body candidates with
    | some b =>
      let content := bbc_prepend_meta published_dt published_raw title b
      if content.isEmpty then none
      else some { source := url, content := content }
    | none => none
  else none

/-- Counterexample to claim C8 as stated: an NPR page from which no text is
extracted yields `Ok(Some(article))` with an empty body, not the
"no content" outcome. -/
theorem npr_fetch_empty_body_counterexample :
    npr_fetch_article "u".toList [] =
      some { source := "u".toList, content := [] } ∧
    (npr_fetch_article "u".toList []).isSome = true :=
  ⟨rfl, rfl⟩

theorem bbc_body_none (cands : List (List (List Char)))
    (h : ∀ texts ∈ cands,
      ((texts.map rustTrim).filter (fun p => !p.isEmpty)) = []) :
    bbc_body cands = none := by
  induction cands with
  | nil => rfl
  | cons texts rest ih =>
    rw [bbc_body]
    have hh := h texts (List.mem_cons_self _ _)
    simp only [hh, List.isEmpty_nil, if_true]
    exact ih (fun t ht => h t (List.mem_cons_of_mem _ ht))

theorem intercalate_cons_ne_nil (sep p : List Char) (ps : List (List Char))
    (hp : p ≠ []) : List.intercalate sep (p :: ps) ≠ [] := by
  cases ps with
  | nil =>
    simpa [List.intercalate] using hp
  | cons q qs =>
    intro h
    rw [List.intercalate, List.intersperse_cons₂, List.join_cons] at h
    exact hp (List.append_eq_nil.1 h).1

theorem bbc_body_some_ne_nil (cands : List (List (List Char))) (b : List Char)
    (h : bbc_body cands = some b) : b ≠ [] := by
  induction cands with
  | nil => cases h
  | cons texts rest ih =>
    rw [bbc_body] at h
    split at h
    · exact ih h
    · rename_i hne
      cases hpp : (texts.map rustTrim).filter (fun p => !p.isEmpty) with
      | nil => rw [hpp] at hne; simp at hne
      | cons p ps =>
        rw [hpp] at h
        cases h
        have hpmem : p ∈ (texts.map rustTrim).filter (fun p => !p.isEmpty) := by
          rw [hpp]; exact List.mem_cons_self _ _
        have hpne : ¬ p.isEmpty := by
          simpa using List.of_mem_filter hpmem
        exact intercalate_cons_ne_nil _ _ _ (by simpa using hpne)

theorem bbc_prepend_meta_ne_nil (pdt praw : Option (List Char))
    (title b : List Char) (hb : b ≠ []) :
    bbc_prepend_meta pdt praw title b ≠ [] := by
  unfold bbc_prepend_meta
  cases pdt with
  | some dt =>
    intro h
    exact absurd (List.append_eq_nil.1 (List.append_eq_nil.1
      (List.append_eq_nil.1 h).1).1).1 (by decide)
  | none =>
    cases praw with
    | some raw =>
      intro h
      exact absurd (List.append_eq_nil.1 (List.append_eq_nil.1
        (List.append_eq_nil.1 h).1).1).1 (by decide)
    | none =>
      dsimp only
      split
      · exact hb
      · intro h
        exact absurd (List.append_eq_nil.1 (List.append_eq_nil.1
          (List.append_eq_nil.1 h).1).1).1 (by decide)

/-- Claim C8 (amended): the BBC adapter behaves as claimed — a page on the
accepted origin from which no nonempty body paragraph can be extracted
yields the soft no-content outcome, and when a body is found the
published-at and title header lines are prepended to it; the NPR adapter,
however, always returns `Ok(Some(..))` with the concatenated selector
text (possibly an empty body) and prepends no separate header lines. -/
theorem fetch_article_content_behavior :
    (∀ (url : List Char) (pdt praw : Option (List Char)) (title : List Char)
      (cands : List (List (List Char))),
      hostOf url = some "www.bbc.com".toList → is_bbc_article_url url = true →
      (∀ texts ∈ cands,
        ((texts.map rustTrim).filter (fun p => !p.isEmpty)) = []) →
      bbc_fetch_article url pdt praw title cands = none) ∧
    (∀ (url : List Char) (pdt praw : Option (List Char)) (title : List Char)
      (cands : List (List (List Char))) (b : List Char),
      hostOf url = some "www.bbc.com".toList → is_bbc_article_url url = true →
      bbc_body cands = some b →
      bbc_fetch_article url pdt praw title cands =
        some { source := url, content := bbc_prepend_meta pdt praw title b }) ∧
    (∀ (url : List Char) (texts : List (List Char)),
      npr_fetch_article url texts =
        some { source := url,
               content := (texts.map (fun t => t ++ ['\n'])).join }) := by
  refine ⟨fun url pdt praw title cands hhost hart hempty => ?_,
    fun url pdt praw title cands b hhost hart hbody => ?_,
    fun url texts => rfl⟩
  · rw [bbc_fetch_article, if_pos ⟨hhost, hart⟩, bbc_body_none cands hempty]
  · rw [bbc_fetch_article, if_pos ⟨hhost, hart⟩, hbody]
    have hne : bbc_prepend_meta pdt praw title b ≠ [] :=
      bbc_prepend_meta_ne_nil pdt praw title b (bbc_body_some_ne_nil cands b hbody)
    simp only [List.isEmpty_iff, hne, if_false]

/-- Witness for C8 (amended) at a concrete instance: a BBC article URL with
no extractable body text is a soft no-content result. -/
theorem fetch_article_content_behavior_witness :
    hostOf "https://www.bbc.com/news/articles/abc".toList =
      some "www.bbc.com".toList ∧
    is_bbc_article_url "https://www.bbc.com/news/articles/abc".toList = true ∧
    bbc_fetch_article "https://www.bbc.com/news/articles/abc".toList none none
      "t".toList [] = none := by
  refine ⟨by decide, by decide, ?_⟩
  exact fetch_article_content_behavior.1 _ none none _ [] (by decide) (by decide)
    (fun texts ht => absurd ht (List.not_mem_nil _))

/-! ## `src/models.rs` and `src/outputs/indexes.rs`: the index merger -/

namespace Models

/-- `models.rs::NamedEntity` (texts as character lists). -/
structure NamedEntity where
  name : List Char
  whatIsThisEntity : List Char
  whyIsThisEntityRelevantToTheArticle : List Char
deriving DecidableEq

/-- `models.rs::ImportantDate`. -/
structure ImportantDate where
  dateMentionedInArticle : List Char
  descriptionOfWhyDateIsRelevant : List Char
deriving DecidableEq

/-- `models.rs::ImportantTimeframe`. -/
structure ImportantTimeframe where
  approximateTimeFrameStart : List Char
  approximateTimeFrameEnd : List Char
  descriptionOfWhyTimeFrameIsRelevant : List Char
deriving DecidableEq

/-- `models.rs::AwfulNewsArticle` (the library variant, with category and
tags). -/
structure AwfulNewsArticle where
  source : Option (List Char)
  dateOfPublication : List Char
  timeOfPublication : List Char
  title : List Char
  category : List Char
  summaryOfNewsArticle : List Char
  keyTakeAways : List (List Char)
  namedEntities : List NamedEntity
  importantDates : List ImportantDate
  importantTimeframes : List ImportantTimeframe
  tags : List (List Char)
  content : Option (List Char)
deriving DecidableEq

/-- `models.rs::FrontPage`. -/
structure FrontPage where
  local_date : List Char
  time_of_day : List Char
  local_time : List Char
  articles : List AwfulNewsArticle
deriving DecidableEq

/-- `models.rs::AwfulNewsArticle::source_tag`: parse the source URL, take
the host, split on '.', and return the part before the TLD when there are
at least two parts. -/
def AwfulNewsArticle.source_tag (a : AwfulNewsArticle) : Option (List Char) :=
  a.source.bind (fun url =>
    match hostOf url with
    | some host =>
      let parts := splitOnChar '.' host
      if parts.length ≥ 2 then some (parts.getD (parts.length - 2) [])
      else none
    | none => none)

end Models

/-- `indexes.rs::update_date_toc_file` as a function of the current file
content (`none` when the file does not exist): the header is written only
for a fresh file, and the whole block — edition line, then the articles
grouped by category in `BTreeMap` (sorted) key order — is APPENDED to the
existing bytes (`OpenOptions::append`). -/
def update_date_toc_file (old : Option (List Char)) (fp : Models.FrontPage)
    (markdown_filename : List Char) : List Char :=
  let header : List Char :=
    if old.isNone then
      "# Editions published on ".toList ++ fp.local_date ++ "\n\n".toList
    else []
  let edition : List Char :=
    "- [".toList ++ upcase fp.time_of_day ++ "](./".toList ++
      markdown_filename ++ ")\n".toList
  let cats := sortLex (uniqueBy id (fp.articles.map (fun a => a.category)))
  let body := (cats.map (fun cat =>
    ("\t- [**".toList ++ cat ++ "**](".toList ++ markdown_filename ++
      "#".toList ++ slugify_title cat ++ ")\n".toList)
    ++ ((fp.articles.filter (fun a => decide (a.category = cat))).map
      (fun a =>
        let tagStr : List Char := match a.source_tag with
          | some tag => " <small>`".toList ++ tag ++ "`</small>".toList
          | none => []
        "\t\t- ".toList ++ tagStr ++ " - [".toList ++ a.title ++
          "](".toList ++ markdown_filename ++ "#".toList ++
          slugify_title a.title ++ ")\n".toList)).join)).join
  (old.getD []) ++ header ++ edition ++ body

/-- The inner while loop of `update_summary_md`/`update_daily_news_index`:
walk the contiguous run of lines starting with the block indent `pfx`; if a
line trim-matches the edition heading the lines are left unchanged,
otherwise the heading is inserted at the end of the run. -/
def innerScan (pfx eH : List Char) : List (List Char) → List (List Char)
  | [] => [eH]
  | l :: rest =>
    if pfx.isPrefixOf l = true then
      if rustTrim l = rustTrim eH then l :: rest
      else l :: innerScan pfx eH rest
    else eH :: l :: rest

/-- The outer while loop: find the first line trim-matching the date
heading and run the inner scan on the lines after it; `none` when no line
matches. -/
def scanDate (dH eH pfx : List Char) : List (List Char) → Option (List (List Char))
  | [] => none
  | l :: rest =>
    if rustTrim l = rustTrim dH then some (l :: innerScan pfx eH rest)
    else
      match scanDate dH eH pfx rest with
      | some r => some (l :: r)
      | none => none

/-- The fallback of `update_summary_md`: insert the date heading and the
edition heading right after the first line containing "- [Daily News]"
(no change when no line contains it). -/
def insertAfterDailyNewsAnchor (dH eH : List Char) :
    List (List Char) → List (List Char)
  | [] => []
  | l :: rest =>
    if isSubstring "- [Daily News]".toList l = true then l :: dH :: eH :: rest
    else l :: insertAfterDailyNewsAnchor dH eH rest

/-- The line transformation of `update_summary_md`. -/
def update_summary_lines (dH eH : List Char) (lines : List (List Char)) :
    List (List Char) :=
  match scanDate dH eH "        - ".toList lines with
  | some r => r
  | none => insertAfterDailyNewsAnchor dH eH lines

/-- The synthesized content for a missing SUMMARY.md. -/
def summaryDefaultContent : List Char :=
  "# Summary\n\n[Home](./home.md)\n- [PGP](./pgp.md)\n- [Contact](./contact.md)\n- [Daily News](./daily_news.md)\n".toList

/-- The date heading of `update_summary_md`. -/
def summaryDateHeading (d : List Char) : List Char :=
  "    - [".toList ++ d ++ "](./".toList ++ d ++ ".md)".toList

/-- The edition heading of `update_summary_md`. -/
def summaryEditionHeading (tod file : List Char) : List Char :=
  "        - [".toList ++ upcase tod ++ "](./".toList ++ file ++ ")".toList

/-- `indexes.rs::update_summary_md` as a function of the current file
content: read (or synthesize) the document, split into lines, insert the
date/edition headings, and write back `lines.join("\n")`. -/
def update_summary_md (old : Option (List Char)) (fp : Models.FrontPage)
    (markdown_filename : List Char) : List Char :=
  let summary := match old with
    | some s => s
    | none => summaryDefaultContent
  joinLines (update_summary_lines (summaryDateHeading fp.local_date)
    (summaryEditionHeading fp.time_of_day markdown_filename)
    (rustLines summary))

/-- The fallback of `update_daily_news_index`: insert a blank line, the
date heading and the edition entry after the "# Awful News Index" heading,
or push both headings at the end when the heading is missing. -/
def insertAtNewsIndexAnchor (dH eH : List Char) :
    List (List Char) → List (List Char)
  | [] => [dH, eH]
  | l :: rest =>
    if "# Awful News Index".toList.isPrefixOf l = true then
      l :: [] :: dH :: eH :: rest
    else l :: insertAtNewsIndexAnchor dH eH rest

/-- The line transformation of `update_daily_news_index`. -/
def update_daily_news_lines (dH eH : List Char) (lines : List (List Char)) :
    List (List Char) :=
  match scanDate dH eH "    - ".toList lines with
  | some r => r
  | none => insertAtNewsIndexAnchor dH eH lines

/-- The synthesized content for a missing daily_news.md. -/
def dailyDefaultContent : List Char := "# Awful News Index\n\n".toList

/-- The date heading of `update_daily_news_index`. -/
def dailyDateHeading (d : List Char) : List Char :=
  "- [**".toList ++ d ++ "**](./".toList ++ d ++ ".md)".toList

/-- The edition entry of `update_daily_news_index`. -/
def dailyEditionEntry (tod file : List Char) : List Char :=
  "    - [".toList ++ upcase tod ++ "](./".toList ++ file ++ ")".toList

/-- `indexes.rs::update_daily_news_index` as a function of the current
file content. -/
def update_daily_news_index (old : Option (List Char)) (fp : Models.FrontPage)
    (markdown_filename : List Char) : List Char :=
  let content := match old with
    | some s => s
    | none => dailyDefaultContent
  joinLines (update_daily_news_lines (dailyDateHeading fp.local_date)
    (dailyEditionEntry fp.time_of_day markdown_filename)
    (rustLines content))

/-- Counterexample to claim C1 as stated: `update_date_toc_file` appends
its block unconditionally, so applying the merge twice with identical
arguments does not reproduce the once-merged document byte for byte. -/
theorem update_date_toc_not_idempotent :
    update_date_toc_file
        (some (update_date_toc_file none
          (Models.FrontPage.mk "d".toList "m".toList "t".toList [])
          "f".toList))
        (Models.FrontPage.mk "d".toList "m".toList "t".toList [])
        "f".toList ≠
      update_date_toc_file none
        (Models.FrontPage.mk "d".toList "m".toList "t".toList [])
        "f".toList := by
  decide

/-- Counterexample to claim C9 as stated: after a second
`update_date_toc_file` merge of the same (date, edition) pair, the edition
item entry appears twice in the document. -/
theorem update_date_toc_duplicates_pair :
    ((rustLines (update_date_toc_file
        (some (update_date_toc_file none
          (Models.FrontPage.mk "d".toList "m".toList "t".toList [])
          "f".toList))
        (Models.FrontPage.mk "d".toList "m".toList "t".toList [])
        "f".toList)).countP
      (fun l => decide (rustTrim l = rustTrim "- [M](./f)".toList))) = 2 := by
  decide

theorem splitInclNl_append_nl (l t : List Char) (h : '\n' ∉ l) :
    splitInclNl (l ++ '\n' :: t) = (l ++ ['\n']) :: splitInclNl t := by
  induction l with
  | nil => simp [splitInclNl]
  | cons c cs ih =>
    have hc : c ≠ '\n' := fun hc => h (hc ▸ List.mem_cons_self _ _)
    have hcs : '\n' ∉ cs := fun hm => h (List.mem_cons_of_mem _ hm)
    rw [List.cons_append, splitInclNl, if_neg hc, ih hcs]
    rfl

theorem splitInclNl_no_nl (l : List Char) (h : '\n' ∉ l) (h0 : l ≠ []) :
    splitInclNl l = [l] := by
  induction l with
  | nil => exact absurd rfl h0
  | cons c cs ih =>
    have hc : c ≠ '\n' := fun hc => h (hc ▸ List.mem_cons_self _ _)
    have hcs : '\n' ∉ cs := fun hm => h (List.mem_cons_of_mem _ hm)
    rw [splitInclNl, if_neg hc]
    cases hcase : cs with
    | nil => rfl
    | cons d ds =>
      rw [← hcase, ih hcs (by simp [hcase])]

theorem mem_of_getLast?_aux {α : Type} (l : List α) (a : α)
    (h : l.getLast? = some a) : a ∈ l := by
  rw [List.getLast?_eq_head?_reverse] at h
  have hmem : a ∈ l.reverse := by
    cases hr : l.reverse with
    | nil => rw [hr] at h; cases h
    | cons b bs =>
      rw [hr] at h
      simp only [List.head?_cons, Option.some.injEq] at h
      rw [← h]
      exact List.mem_cons_self _ _
  exact List.mem_reverse.1 hmem

theorem stripNlCr_append_nl (l : List Char) (h : '\r' ∉ l) :
    stripNlCr (l ++ ['\n']) = l := by
  rw [stripNlCr, if_pos (List.getLast?_concat _), List.dropLast_concat]
  split
  · rename_i hr
    exact absurd (mem_of_getLast?_aux _ _ hr) h
  · rfl

theorem stripNlCr_no_nl (l : List Char) (h : '\n' ∉ l) : stripNlCr l = l := by
  rw [stripNlCr]
  split
  · rename_i hl
    exact absurd (mem_of_getLast?_aux _ _ hl) h
  · rfl

theorem joinLines_singleton (l : List Char) : joinLines [l] = l := by
  simp [joinLines, List.intercalate]

theorem joinLines_cons_cons (l m : List Char) (t : List (List Char)) :
    joinLines (l :: m :: t) = l ++ '\n' :: joinLines (m :: t) := by
  simp only [joinLines, List.intercalate, List.intersperse_cons₂,
    List.join_cons, List.append_assoc]
  rfl

theorem rustLines_joinLines (ls : List (List Char))
    (hclean : ∀ l ∈ ls, '\n' ∉ l ∧ '\r' ∉ l)
    (hlast : ls.getLast? ≠ some []) : rustLines (joinLines ls) = ls := by
  induction ls with
  | nil => rfl
  | cons l t ih =>
    cases t with
    | nil =>
      have hl := hclean l (List.mem_cons_self _ _)
      have hne : l ≠ [] := by
        intro he
        exact hlast (by rw [he]; rfl)
      rw [joinLines_singleton, rustLines, splitInclNl_no_nl l hl.1 hne]
      simp [stripNlCr_no_nl l hl.1]
    | cons m t2 =>
      have hl := hclean l (List.mem_cons_self _ _)
      have hclean2 : ∀ x ∈ m :: t2, '\n' ∉ x ∧ '\r' ∉ x :=
        fun x hx => hclean x (List.mem_cons_of_mem _ hx)
      have hlast2 : (m :: t2).getLast? ≠ some [] := by
        intro he
        apply hlast
        rw [← he]
        rfl
      rw [joinLines_cons_cons, rustLines,
        splitInclNl_append_nl _ _ hl.1, List.map_cons,
        stripNlCr_append_nl l hl.2]
      have := ih hclean2 hlast2
      rw [rustLines] at this
      rw [this]

theorem splitInclNl_ne_nil_mem (s : List Char) :
    ∀ p ∈ splitInclNl s, p ≠ [] := by
  induction s with
  | nil => intro p hp; cases hp
  | cons c cs ih =>
    intro p hp
    rw [splitInclNl] at hp
    split at hp
    · rcases List.mem_cons.1 hp with h | h
      · subst h; simp
      · exact ih p h
    · rename_i hc
      rcases hsp : splitInclNl cs with _ | ⟨q, qs⟩ <;> rw [hsp] at hp
      · rcases List.mem_cons.1 hp with h | h
        · subst h; simp
        · cases h
      · rcases List.mem_cons.1 hp with h | h
        · subst h; simp
        · exact ih p (by rw [hsp]; exact List.mem_cons_of_mem _ h)

theorem splitInclNl_chars_subset (s : List Char) :
    ∀ p ∈ splitInclNl s, ∀ c ∈ p, c ∈ s := by
  induction s with
  | nil => intro p hp; cases hp
  | cons c cs ih =>
    intro p hp d hd
    rw [splitInclNl] at hp
    split at hp
    · rename_i hc
      rcases List.mem_cons.1 hp with h | h
      · subst h
        simp only [List.mem_singleton] at hd
        subst hd
        exact hc ▸ List.mem_cons_self _ _
      · exact List.mem_cons_of_mem _ (ih p h d hd)
    · rcases hsp : splitInclNl cs with _ | ⟨q, qs⟩ <;> rw [hsp] at hp
      · rcases List.mem_cons.1 hp with h | h
        · subst h
          simp only [List.mem_singleton] at hd
          subst hd
          exact List.mem_cons_self _ _
        · cases h
      · rcases List.mem_cons.1 hp with h | h
        · subst h
          rcases List.mem_cons.1 hd with h' | h'
          · subst h'; exact List.mem_cons_self _ _
          · refine List.mem_cons_of_mem _ ?_
            exact ih q (by rw [hsp]; exact List.mem_cons_self _ _) d h'
        · refine List.mem_cons_of_mem _ ?_
          exact ih p (by rw [hsp]; exact List.mem_cons_of_mem _ h) d hd

theorem splitInclNl_dropLast_no_nl (s : List Char) :
    ∀ p ∈ splitInclNl s, '\n' ∉ p.dropLast := by
  induction s with
  | nil => intro p hp; cases hp
  | cons c cs ih =>
    intro p hp
    rw [splitInclNl] at hp
    split at hp
    · rcases List.mem_cons.1 hp with h | h
      · subst h; simp
      · exact ih p h
    · rename_i hc
      rcases hsp : splitInclNl cs with _ | ⟨q, qs⟩ <;> rw [hsp] at hp
      · rcases List.mem_cons.1 hp with h | h
        · subst h; simp
        · cases h
      · rcases List.mem_cons.1 hp with h | h
        · subst h
          have hq := ih q (by rw [hsp]; exact List.mem_cons_self _ _)
          cases hq2 : q with
          | nil => simp
          | cons e es =>
            rw [← hq2]
            have hqn : q ≠ [] := by simp [hq2]
            rw [List.dropLast_cons_of_ne_nil hqn]
            intro hmem
            rcases List.mem_cons.1 hmem with h' | h'
            · exact hc h'.symm
            · exact hq (hq2 ▸ h')
        · exact ih p (by rw [hsp]; exact List.mem_cons_of_mem _ h)

theorem stripNlCr_chars_subset (p : List Char) :
    ∀ c ∈ stripNlCr p, c ∈ p := by
  intro c hc
  rw [stripNlCr] at hc
  split at hc
  · split at hc
    · exact (List.dropLast_sublist _).mem ((List.dropLast_sublist _).mem hc)
    · exact (List.dropLast_sublist _).mem hc
  · exact hc

theorem no_nl_stripNlCr (p : List Char) (hpd : '\n' ∉ p.dropLast) :
    '\n' ∉ stripNlCr p := by
  rw [stripNlCr]
  split
  · split
    · intro hc
      exact hpd ((List.dropLast_sublist _).mem hc)
    · exact hpd
  · rename_i hlast
    intro hc
    have hpn : p ≠ [] := by
      intro he
      rw [he] at hc
      cases hc
    rw [← List.dropLast_append_getLast hpn] at hc
    rcases List.mem_append.1 hc with h | h
    · exact hpd h
    · simp only [List.mem_singleton] at h
      exact hlast (by rw [List.getLast?_eq_getLast p hpn, ← h])

theorem rustLines_clean (s : List Char) (hr : '\r' ∉ s) :
    ∀ l ∈ rustLines s, '\n' ∉ l ∧ '\r' ∉ l := by
  intro l hl
  rw [rustLines] at hl
  obtain ⟨p, hp, hpl⟩ := List.mem_map.1 hl
  subst hpl
  refine ⟨no_nl_stripNlCr p (splitInclNl_dropLast_no_nl s p hp), ?_⟩
  intro hc
  exact hr (splitInclNl_chars_subset s p hp '\r' (stripNlCr_chars_subset p '\r' hc))

theorem splitInclNl_eq_nil_iff (s : List Char) :
    splitInclNl s = [] ↔ s = [] := by
  constructor
  · intro h
    cases s with
    | nil => rfl
    | cons c cs =>
      rw [splitInclNl] at h
      split at h
      · cases h
      · rcases hsp : splitInclNl cs with _ | ⟨q, qs⟩ <;> rw [hsp] at h <;>
          cases h
  · intro h; subst h; rfl

theorem splitInclNl_last_piece (s : List Char) (hs : s ≠ []) :
    ∃ p, (splitInclNl s).getLast? = some p ∧ p ≠ [] ∧
      p.getLast? = s.getLast? := by
  induction s with
  | nil => exact absurd rfl hs
  | cons c cs ih =>
    cases hcs : cs with
    | nil =>
      subst hcs
      by_cases hc : c = '\n'
      · subst hc
        exact ⟨['\n'], rfl, by simp, rfl⟩
      · refine ⟨[c], ?_, by simp, rfl⟩
        rw [splitInclNl, if_neg hc]
        rfl
    | cons d ds =>
      rw [← hcs]
      have hcsne : cs ≠ [] := by simp [hcs]
      obtain ⟨p, hp1, hp2, hp3⟩ := ih hcsne
      have hlcs : (c :: cs).getLast? = cs.getLast? := by
        rw [hcs]
        simp
      rw [splitInclNl]
      split
      · refine ⟨p, ?_, hp2, by rw [hp3, hlcs]⟩
        cases hsp : splitInclNl cs with
        | nil => exact absurd ((splitInclNl_eq_nil_iff cs).1 hsp) hcsne
        | cons q qs =>
          rw [hsp] at hp1
          rw [List.getLast?_cons_cons]
          exact hp1
      · rcases hsp : splitInclNl cs with _ | ⟨q, qs⟩
        · exact absurd ((splitInclNl_eq_nil_iff cs).1 hsp) hcsne
        · rw [hsp] at hp1
          cases hqs : qs with
          | nil =>
            subst hqs
            have hqp : q = p := by simpa using hp1
            refine ⟨c :: q, by simp, by simp, ?_⟩
            have hcq : (c :: q).getLast? = q.getLast? := by
              cases hq0 : q with
              | nil => exact absurd hq0 (hqp ▸ hp2)
              | cons e es => simp
            rw [hcq, hqp, hp3, hlcs]
          | cons r rs =>
            subst hqs
            refine ⟨p, ?_, hp2, by rw [hp3, hlcs]⟩
            rw [List.getLast?_cons_cons] at hp1
            rw [List.getLast?_cons_cons]
            exact hp1

theorem rustLines_last_ne_nil (s : List Char) (h : s.getLast? ≠ some '\n') :
    (rustLines s).getLast? ≠ some [] := by
  by_cases hsne : s = []
  · subst hsne
    intro hc
    cases hc
  · obtain ⟨p, hp1, hp2, hp3⟩ := splitInclNl_last_piece s hsne
    rw [rustLines, List.getLast?_map, hp1]
    intro hc
    have hcc : stripNlCr p = [] := by simpa using hc
    have hstrip : stripNlCr p = p := by
      rw [stripNlCr, if_neg (by rw [hp3]; exact h)]
    rw [hstrip] at hcc
    exact hp2 hcc

theorem joinLines_chars (ls : List (List Char)) :
    ∀ c ∈ joinLines ls, c = '\n' ∨ ∃ l ∈ ls, c ∈ l := by
  induction ls with
  | nil => intro c hc; cases hc
  | cons l t ih =>
    cases t with
    | nil =>
      intro c hc
      rw [joinLines_singleton] at hc
      exact Or.inr ⟨l, List.mem_cons_self _ _, hc⟩
    | cons m t2 =>
      intro c hc
      rw [joinLines_cons_cons] at hc
      rcases List.mem_append.1 hc with h | h
      · exact Or.inr ⟨l, List.mem_cons_self _ _, h⟩
      · rcases List.mem_cons.1 h with h' | h'
        · exact Or.inl h'
        · rcases ih c h' with h'' | ⟨x, hx, hcx⟩
          · exact Or.inl h''
          · exact Or.inr ⟨x, List.mem_cons_of_mem _ hx, hcx⟩

theorem joinLines_ne_nil (ls : List (List Char)) (hne : ls ≠ [])
    (hlast : ls.getLast? ≠ some []) : joinLines ls ≠ [] := by
  cases ls with
  | nil => exact absurd rfl hne
  | cons l t =>
    cases t with
    | nil =>
      rw [joinLines_singleton]
      intro he
      exact hlast (by rw [he]; rfl)
    | cons m t2 =>
      rw [joinLines_cons_cons]
      intro he
      have := (List.append_eq_nil.1 he).2
      cases this

theorem joinLines_getLast_ne_nl (ls : List (List Char))
    (hnl : ∀ l ∈ ls, '\n' ∉ l) (hlast : ls.getLast? ≠ some []) :
    (joinLines ls).getLast? ≠ some '\n' := by
  induction ls with
  | nil => intro hc; cases hc
  | cons l t ih =>
    cases t with
    | nil =>
      rw [joinLines_singleton]
      intro hc
      exact hnl l (List.mem_cons_self _ _) (mem_of_getLast?_aux _ _ hc)
    | cons m t2 =>
      rw [joinLines_cons_cons]
      have hlast2 : (m :: t2).getLast? ≠ some [] := by
        intro he
        exact hlast (by rw [← he]; rfl)
      have hne2 : joinLines (m :: t2) ≠ [] :=
        joinLines_ne_nil _ (by simp) hlast2
      rw [List.getLast?_append]
      have h1 : ('\n' :: joinLines (m :: t2)).getLast? =
          (joinLines (m :: t2)).getLast? := by
        cases hj : joinLines (m :: t2) with
        | nil => exact absurd hj hne2
        | cons d ds => rfl
      rw [h1]
      have h2 := ih (fun x hx => hnl x (List.mem_cons_of_mem _ hx)) hlast2
      cases hj : (joinLines (m :: t2)).getLast? with
      | none =>
        rw [List.getLast?_eq_none_iff] at hj
        exact absurd hj hne2
      | some d =>
        rw [hj] at h2
        simp only [Option.or_some]
        intro hc
        exact h2 (by rw [← hc])

theorem char_toUpper_ne (c d : Char) (hd : d.toNat < 65) (h : c ≠ d) :
    c.toUpper ≠ d := by
  rw [Char.toUpper]
  split
  · rename_i hn
    intro hc
    have h10 : (Char.ofNat (c.toNat - 32)).toNat = d.toNat := by rw [hc]
    have hv : Nat.isValidChar (c.toNat - 32) := by
      left
      omega
    have hval : (Char.ofNat (c.toNat - 32)).toNat = c.toNat - 32 := by
      rw [Char.ofNat, dif_pos hv]
      rfl
    omega
  · exact h

theorem upcase_clean (s : List Char) (h : '\n' ∉ s ∧ '\r' ∉ s) :
    '\n' ∉ upcase s ∧ '\r' ∉ upcase s := by
  cases s with
  | nil => simp [upcase]
  | cons c cs =>
    have hc1 : c ≠ '\n' := fun he => h.1 (he ▸ List.mem_cons_self _ _)
    have hc2 : c ≠ '\r' := fun he => h.2 (he ▸ List.mem_cons_self _ _)
    rw [upcase]
    constructor
    · intro hm
      rcases List.mem_cons.1 hm with h' | h'
      · exact char_toUpper_ne c '\n' (by decide) hc1 h'.symm
      · exact h.1 (List.mem_cons_of_mem _ h')
    · intro hm
      rcases List.mem_cons.1 hm with h' | h'
      · exact char_toUpper_ne c '\r' (by decide) hc2 h'.symm
      · exact h.2 (List.mem_cons_of_mem _ h')

theorem clean_append (a b : List Char) (ha : '\n' ∉ a ∧ '\r' ∉ a)
    (hb : '\n' ∉ b ∧ '\r' ∉ b) : '\n' ∉ a ++ b ∧ '\r' ∉ a ++ b := by
  constructor <;> intro h <;> rcases List.mem_append.1 h with h' | h'
  · exact ha.1 h'
  · exact hb.1 h'
  · exact ha.2 h'
  · exact hb.2 h'

theorem innerScan_ne_nil (pfx eH : List Char) (ls : List (List Char)) :
    innerScan pfx eH ls ≠ [] := by
  cases ls with
  | nil => simp [innerScan]
  | cons l rest =>
    rw [innerScan]
    split
    · split <;> simp
    · simp

theorem mem_innerScan (pfx eH : List Char) (ls : List (List Char)) :
    ∀ x ∈ innerScan pfx eH ls, x = eH ∨ x ∈ ls := by
  induction ls with
  | nil =>
    intro x hx
    rw [innerScan] at hx
    simp only [List.mem_singleton] at hx
    exact Or.inl hx
  | cons l rest ih =>
    intro x hx
    rw [innerScan] at hx
    split at hx
    · split at hx
      · exact Or.inr hx
      · rcases List.mem_cons.1 hx with h | h
        · exact Or.inr (h ▸ List.mem_cons_self _ _)
        · rcases ih x h with h' | h'
          · exact Or.inl h'
          · exact Or.inr (List.mem_cons_of_mem _ h')
    · rcases List.mem_cons.1 hx with h | h
      · exact Or.inl h
      · exact Or.inr h

theorem innerScan_idem (pfx eH : List Char)
    (hpfx : pfx.isPrefixOf eH = true) (ls : List (List Char)) :
    innerScan pfx eH (innerScan pfx eH ls) = innerScan pfx eH ls := by
  induction ls with
  | nil =>
    rw [innerScan]
    rw [innerScan, if_pos hpfx, if_pos rfl]
  | cons l rest ih =>
    rw [innerScan]
    split
    · rename_i hp
      split
      · rename_i ht
        rw [innerScan, if_pos hp, if_pos ht]
      · rename_i ht
        rw [innerScan, if_pos hp, if_neg ht, ih]
    · rw [innerScan, if_pos hpfx, if_pos rfl]

theorem scanDate_none_parts (dH eH pfx l : List Char)
    (rest : List (List Char))
    (h : scanDate dH eH pfx (l :: rest) = none) :
    rustTrim l ≠ rustTrim dH ∧ scanDate dH eH pfx rest = none := by
  rw [scanDate] at h
  split at h
  · cases h
  · rename_i ht
    refine ⟨ht, ?_⟩
    cases hs : scanDate dH eH pfx rest with
    | some r => rw [hs] at h; cases h
    | none => rfl

theorem mem_scanDate (dH eH pfx : List Char) (ls : List (List Char)) :
    ∀ r, scanDate dH eH pfx ls = some r → ∀ x ∈ r, x = eH ∨ x ∈ ls := by
  induction ls with
  | nil => intro r hr; cases hr
  | cons l rest ih =>
    intro r hr x hx
    rw [scanDate] at hr
    split at hr
    · cases hr
      rcases List.mem_cons.1 hx with h | h
      · exact Or.inr (h ▸ List.mem_cons_self _ _)
      · rcases mem_innerScan pfx eH rest x h with h' | h'
        · exact Or.inl h'
        · exact Or.inr (List.mem_cons_of_mem _ h')
    · cases hs : scanDate dH eH pfx rest with
      | some r2 =>
        rw [hs] at hr
        cases hr
        rcases List.mem_cons.1 hx with h | h
        · exact Or.inr (h ▸ List.mem_cons_self _ _)
        · rcases ih r2 hs x h with h' | h'
          · exact Or.inl h'
          · exact Or.inr (List.mem_cons_of_mem _ h')
      | none => rw [hs] at hr; cases hr

theorem scanDate_some_again (dH eH pfx : List Char)
    (hpfx : pfx.isPrefixOf eH = true) (ls : List (List Char)) :
    ∀ r, scanDate dH eH pfx ls = some r → scanDate dH eH pfx r = some r := by
  induction ls with
  | nil => intro r hr; cases hr
  | cons l rest ih =>
    intro r hr
    rw [scanDate] at hr
    split at hr
    · rename_i ht
      cases hr
      rw [scanDate, if_pos ht, innerScan_idem pfx eH hpfx]
    · rename_i ht
      cases hs : scanDate dH eH pfx rest with
      | some r2 =>
        rw [hs] at hr
        cases hr
        rw [scanDate, if_neg ht, ih r2 hs]
      | none => rw [hs] at hr; cases hr

theorem scanDate_at_inserted_block (dH eH pfx : List Char)
    (hpfx : pfx.isPrefixOf eH = true) (rest : List (List Char)) :
    scanDate dH eH pfx (dH :: eH :: rest) = some (dH :: eH :: rest) := by
  rw [scanDate, if_pos rfl, innerScan, if_pos hpfx, if_pos rfl]

theorem mem_insertAfterDailyNewsAnchor (dH eH : List Char)
    (ls : List (List Char)) :
    ∀ x ∈ insertAfterDailyNewsAnchor dH eH ls,
      x = dH ∨ x = eH ∨ x ∈ ls := by
  induction ls with
  | nil => intro x hx; cases hx
  | cons l rest ih =>
    intro x hx
    rw [insertAfterDailyNewsAnchor] at hx
    split at hx
    · rcases List.mem_cons.1 hx with h | h
      · exact Or.inr (Or.inr (h ▸ List.mem_cons_self _ _))
      · rcases List.mem_cons.1 h with h' | h'
        · exact Or.inl h'
        · rcases List.mem_cons.1 h' with h'' | h''
          · exact Or.inr (Or.inl h'')
          · exact Or.inr (Or.inr (List.mem_cons_of_mem _ h''))
    · rcases List.mem_cons.1 hx with h | h
      · exact Or.inr (Or.inr (h ▸ List.mem_cons_self _ _))
      · rcases ih x h with h' | h' | h'
        · exact Or.inl h'
        · exact Or.inr (Or.inl h')
        · exact Or.inr (Or.inr (List.mem_cons_of_mem _ h'))

theorem summary_fallback_cases (dH eH pfx : List Char)
    (hpfx : pfx.isPrefixOf eH = true) (ls : List (List Char))
    (hnone : scanDate dH eH pfx ls = none) :
    scanDate dH eH pfx (insertAfterDailyNewsAnchor dH eH ls) =
        some (insertAfterDailyNewsAnchor dH eH ls) ∨
      (scanDate dH eH pfx (insertAfterDailyNewsAnchor dH eH ls) = none ∧
        insertAfterDailyNewsAnchor dH eH (insertAfterDailyNewsAnchor dH eH ls) =
          insertAfterDailyNewsAnchor dH eH ls) := by
  induction ls with
  | nil =>
    right
    exact ⟨rfl, rfl⟩
  | cons l rest ih =>
    obtain ⟨ht, hrest⟩ := scanDate_none_parts dH eH pfx l rest hnone
    rw [insertAfterDailyNewsAnchor]
    split
    · rename_i hsub
      left
      rw [scanDate, if_neg ht, scanDate_at_inserted_block dH eH pfx hpfx rest]
    · rename_i hsub
      rcases ih hrest with h | ⟨h1, h2⟩
      · left
        rw [scanDate, if_neg ht, h]
      · right
        constructor
        · rw [scanDate, if_neg ht, h1]
        · rw [insertAfterDailyNewsAnchor, if_neg hsub, h2]

theorem mem_insertAtNewsIndexAnchor (dH eH : List Char)
    (ls : List (List Char)) :
    ∀ x ∈ insertAtNewsIndexAnchor dH eH ls,
      x = dH ∨ x = eH ∨ x = [] ∨ x ∈ ls := by
  induction ls with
  | nil =>
    intro x hx
    rcases List.mem_cons.1 hx with h | h
    · exact Or.inl h
    · simp only [List.mem_singleton] at h
      exact Or.inr (Or.inl h)
  | cons l rest ih =>
    intro x hx
    rw [insertAtNewsIndexAnchor] at hx
    split at hx
    · rcases List.mem_cons.1 hx with h | h
      · exact Or.inr (Or.inr (Or.inr (h ▸ List.mem_cons_self _ _)))
      · rcases List.mem_cons.1 h with h' | h'
        · exact Or.inr (Or.inr (Or.inl h'))
        · rcases List.mem_cons.1 h' with h'' | h''
          · exact Or.inl h''
          · rcases List.mem_cons.1 h'' with h3 | h3
            · exact Or.inr (Or.inl h3)
            · exact Or.inr (Or.inr (Or.inr (List.mem_cons_of_mem _ h3)))
    · rcases List.mem_cons.1 hx with h | h
      · exact Or.inr (Or.inr (Or.inr (h ▸ List.mem_cons_self _ _)))
      · rcases ih x h with h' | h' | h' | h'
        · exact Or.inl h'
        · exact Or.inr (Or.inl h')
        · exact Or.inr (Or.inr (Or.inl h'))
        · exact Or.inr (Or.inr (Or.inr (List.mem_cons_of_mem _ h')))

theorem daily_fallback_scan (dH eH pfx : List Char)
    (hpfx : pfx.isPrefixOf eH = true) (hdne : rustTrim dH ≠ [])
    (ls : List (List Char)) (hnone : scanDate dH eH pfx ls = none) :
    scanDate dH eH pfx (insertAtNewsIndexAnchor dH eH ls) =
      some (insertAtNewsIndexAnchor dH eH ls) := by
  induction ls with
  | nil =>
    rw [insertAtNewsIndexAnchor]
    rw [scanDate, if_pos rfl, innerScan, if_pos hpfx, if_pos rfl]
  | cons l rest ih =>
    obtain ⟨ht, hrest⟩ := scanDate_none_parts dH eH pfx l rest hnone
    rw [insertAtNewsIndexAnchor]
    split
    · rename_i hhead
      have hblank : rustTrim ([] : List Char) ≠ rustTrim dH := by
        intro he
        exact hdne (by rw [← he]; rfl)
      rw [scanDate, if_neg ht, scanDate, if_neg hblank,
        scanDate_at_inserted_block dH eH pfx hpfx rest]
    · rename_i hhead
      rw [scanDate, if_neg ht, ih hrest]

theorem update_summary_lines_idem (dH eH : List Char)
    (hpfx : "        - ".toList.isPrefixOf eH = true)
    (ls : List (List Char)) :
    update_summary_lines dH eH (update_summary_lines dH eH ls) =
      update_summary_lines dH eH ls := by
  cases hs : scanDate dH eH "        - ".toList ls with
  | some r =>
    have hls : update_summary_lines dH eH ls = r := by
      rw [update_summary_lines, hs]
    rw [hls, update_summary_lines,
      scanDate_some_again dH eH _ hpfx ls r hs]
  | none =>
    have hls : update_summary_lines dH eH ls =
        insertAfterDailyNewsAnchor dH eH ls := by
      rw [update_summary_lines, hs]
    rcases summary_fallback_cases dH eH _ hpfx ls hs with h | ⟨h1, h2⟩
    · rw [hls, update_summary_lines, h]
    · rw [hls, update_summary_lines, h1, h2]

theorem update_daily_news_lines_idem (dH eH : List Char)
    (hpfx : "    - ".toList.isPrefixOf eH = true)
    (hdne : rustTrim dH ≠ []) (ls : List (List Char)) :
    update_daily_news_lines dH eH (update_daily_news_lines dH eH ls) =
      update_daily_news_lines dH eH ls := by
  cases hs : scanDate dH eH "    - ".toList ls with
  | some r =>
    have hls : update_daily_news_lines dH eH ls = r := by
      rw [update_daily_news_lines, hs]
    rw [hls, update_daily_news_lines,
      scanDate_some_again dH eH _ hpfx ls r hs]
  | none =>
    have hls : update_daily_news_lines dH eH ls =
        insertAtNewsIndexAnchor dH eH ls := by
      rw [update_daily_news_lines, hs]
    rw [hls, update_daily_news_lines,
      daily_fallback_scan dH eH _ hpfx hdne ls hs]

theorem getLast?_cons_ne_nil {α : Type} (a : α) (t : List α) (ht : t ≠ []) :
    (a :: t).getLast? = t.getLast? := by
  cases t with
  | nil => exact absurd rfl ht
  | cons b t2 => simp

theorem tail_last_ne {l : List Char} {rest : List (List Char)}
    (h : (l :: rest).getLast? ≠ some []) : rest.getLast? ≠ some [] := by
  cases rest with
  | nil => intro hc; cases hc
  | cons m t =>
    rw [getLast?_cons_ne_nil _ _ (by simp)] at h
    exact h

theorem innerScan_last (pfx eH : List Char) (ls : List (List Char))
    (heH : eH ≠ []) (hlast : ls.getLast? ≠ some []) :
    (innerScan pfx eH ls).getLast? ≠ some [] := by
  induction ls with
  | nil =>
    rw [innerScan]
    intro hc
    simp only [List.getLast?_singleton, Option.some.injEq] at hc
    exact heH hc
  | cons l rest ih =>
    rw [innerScan]
    split
    · split
      · exact hlast
      · rw [getLast?_cons_ne_nil _ _ (innerScan_ne_nil pfx eH rest)]
        exact ih (tail_last_ne hlast)
    · rw [getLast?_cons_ne_nil _ _ (by simp)]
      exact hlast

theorem scanDate_some_ne_nil (dH eH pfx : List Char) (ls : List (List Char)) :
    ∀ r, scanDate dH eH pfx ls = some r → r ≠ [] := by
  induction ls with
  | nil => intro r hr; cases hr
  | cons l rest ih =>
    intro r hr
    rw [scanDate] at hr
    split at hr
    · cases hr; simp
    · cases hs : scanDate dH eH pfx rest with
      | some r2 => rw [hs] at hr; cases hr; simp
      | none => rw [hs] at hr; cases hr

theorem scanDate_last (dH eH pfx : List Char) (heH : eH ≠ [])
    (ls : List (List Char)) :
    ∀ r, scanDate dH eH pfx ls = some r → ls.getLast? ≠ some [] →
      r.getLast? ≠ some [] := by
  induction ls with
  | nil => intro r hr; cases hr
  | cons l rest ih =>
    intro r hr hlast
    rw [scanDate] at hr
    split at hr
    · cases hr
      rw [getLast?_cons_ne_nil _ _ (innerScan_ne_nil pfx eH rest)]
      exact innerScan_last pfx eH rest heH (tail_last_ne hlast)
    · cases hs : scanDate dH eH pfx rest with
      | some r2 =>
        rw [hs] at hr
        cases hr
        rw [getLast?_cons_ne_nil _ _ (scanDate_some_ne_nil dH eH pfx rest r2 hs)]
        exact ih r2 hs (tail_last_ne hlast)
      | none => rw [hs] at hr; cases hr

theorem insertAfterDailyNewsAnchor_nil_iff (dH eH : List Char)
    (ls : List (List Char)) :
    insertAfterDailyNewsAnchor dH eH ls = [] ↔ ls = [] := by
  cases ls with
  | nil => simp [insertAfterDailyNewsAnchor]
  | cons l rest =>
    rw [insertAfterDailyNewsAnchor]
    constructor
    · intro h
      split at h <;> cases h
    · intro h; cases h

theorem insertAfterDailyNewsAnchor_last (dH eH : List Char) (heH : eH ≠ [])
    (ls : List (List Char)) (hlast : ls.getLast? ≠ some []) :
    (insertAfterDailyNewsAnchor dH eH ls).getLast? ≠ some [] := by
  induction ls with
  | nil => intro hc; cases hc
  | cons l rest ih =>
    rw [insertAfterDailyNewsAnchor]
    split
    · cases rest with
      | nil =>
        intro hc
        simp only [List.getLast?_cons_cons, List.getLast?_singleton,
          Option.some.injEq] at hc
        exact heH hc
      | cons m t =>
        rw [getLast?_cons_ne_nil _ _ (by simp),
          getLast?_cons_ne_nil _ _ (by simp),
          getLast?_cons_ne_nil _ _ (by simp)]
        exact tail_last_ne hlast
    · by_cases h0 : rest = []
      · subst h0
        rw [insertAfterDailyNewsAnchor]
        exact hlast
      · rw [getLast?_cons_ne_nil _ _
          (fun hh => h0 ((insertAfterDailyNewsAnchor_nil_iff dH eH rest).1 hh))]
        exact ih (tail_last_ne hlast)

theorem insertAtNewsIndexAnchor_ne_nil (dH eH : List Char)
    (ls : List (List Char)) : insertAtNewsIndexAnchor dH eH ls ≠ [] := by
  cases ls with
  | nil => simp [insertAtNewsIndexAnchor]
  | cons l rest =>
    rw [insertAtNewsIndexAnchor]
    split <;> simp

theorem insertAtNewsIndexAnchor_last (dH eH : List Char) (heH : eH ≠ [])
    (ls : List (List Char)) (hlast : ls.getLast? ≠ some []) :
    (insertAtNewsIndexAnchor dH eH ls).getLast? ≠ some [] := by
  induction ls with
  | nil =>
    intro hc
    simp only [insertAtNewsIndexAnchor, List.getLast?_cons_cons,
      List.getLast?_singleton, Option.some.injEq] at hc
    exact heH hc
  | cons l rest ih =>
    rw [insertAtNewsIndexAnchor]
    split
    · cases rest with
      | nil =>
        intro hc
        simp only [List.getLast?_cons_cons, List.getLast?_singleton,
          Option.some.injEq] at hc
        exact heH hc
      | cons m t =>
        rw [getLast?_cons_ne_nil _ _ (by simp),
          getLast?_cons_ne_nil _ _ (by simp),
          getLast?_cons_ne_nil _ _ (by simp),
          getLast?_cons_ne_nil _ _ (by simp)]
        exact tail_last_ne hlast
    · rw [getLast?_cons_ne_nil _ _ (insertAtNewsIndexAnchor_ne_nil dH eH rest)]
      exact ih (tail_last_ne hlast)

theorem update_summary_lines_last (dH eH : List Char) (heH : eH ≠ [])
    (ls : List (List Char)) (hlast : ls.getLast? ≠ some []) :
    (update_summary_lines dH eH ls).getLast? ≠ some [] := by
  rw [update_summary_lines]
  cases hs : scanDate dH eH "        - ".toList ls with
  | some r => exact scanDate_last dH eH _ heH ls r hs hlast
  | none => exact insertAfterDailyNewsAnchor_last dH eH heH ls hlast

theorem update_daily_news_lines_last (dH eH : List Char) (heH : eH ≠ [])
    (ls : List (List Char)) (hlast : ls.getLast? ≠ some []) :
    (update_daily_news_lines dH eH ls).getLast? ≠ some [] := by
  rw [update_daily_news_lines]
  cases hs : scanDate dH eH "    - ".toList ls with
  | some r => exact scanDate_last dH eH _ heH ls r hs hlast
  | none => exact insertAtNewsIndexAnchor_last dH eH heH ls hlast

theorem mem_update_summary_lines (dH eH : List Char) (ls : List (List Char)) :
    ∀ x ∈ update_summary_lines dH eH ls, x = dH ∨ x = eH ∨ x ∈ ls := by
  intro x hx
  rw [update_summary_lines] at hx
  split at hx
  · rename_i r hs
    rcases mem_scanDate dH eH _ ls r hs x hx with h | h
    · exact Or.inr (Or.inl h)
    · exact Or.inr (Or.inr h)
  · exact mem_insertAfterDailyNewsAnchor dH eH ls x hx

theorem mem_update_daily_news_lines (dH eH : List Char)
    (ls : List (List Char)) :
    ∀ x ∈ update_daily_news_lines dH eH ls,
      x = dH ∨ x = eH ∨ x = [] ∨ x ∈ ls := by
  intro x hx
  rw [update_daily_news_lines] at hx
  split at hx
  · rename_i r hs
    rcases mem_scanDate dH eH _ ls r hs x hx with h | h
    · exact Or.inr (Or.inl h)
    · exact Or.inr (Or.inr (Or.inr h))
  · exact mem_insertAtNewsIndexAnchor dH eH ls x hx

theorem isPrefix_append_right {α : Type} (a b c : List α) (h : a <+: b) :
    a <+: b ++ c :=
  h.trans (List.prefix_append _ _)

theorem rustTrim_ne_nil_of_head (c : Char) (hc : isWsChar c = false)
    (rest : List Char) : rustTrim (c :: rest) ≠ [] := by
  rw [rustTrim]
  have h1 : (c :: rest).dropWhile isWsChar = c :: rest := by
    rw [List.dropWhile_cons_of_neg (by rw [hc]; simp)]
  rw [h1]
  intro h
  have h2 : ((c :: rest).reverse.dropWhile isWsChar) = [] := by
    have := congrArg List.reverse h
    simpa using this
  rw [List.dropWhile_eq_nil_iff] at h2
  have hcmem : c ∈ (c :: rest).reverse := by
    rw [List.mem_reverse]
    exact List.mem_cons_self _ _
  have := h2 c hcmem
  rw [hc] at this
  cases this

theorem clean_lines_of_update_summary (dH eH : List Char)
    (ls : List (List Char)) (hdH : '\n' ∉ dH ∧ '\r' ∉ dH)
    (heH : '\n' ∉ eH ∧ '\r' ∉ eH)
    (hls : ∀ l ∈ ls, '\n' ∉ l ∧ '\r' ∉ l) :
    ∀ l ∈ update_summary_lines dH eH ls, '\n' ∉ l ∧ '\r' ∉ l := by
  intro l hl
  rcases mem_update_summary_lines dH eH ls l hl with h | h | h
  · exact h ▸ hdH
  · exact h ▸ heH
  · exact hls l h

theorem clean_lines_of_update_daily (dH eH : List Char)
    (ls : List (List Char)) (hdH : '\n' ∉ dH ∧ '\r' ∉ dH)
    (heH : '\n' ∉ eH ∧ '\r' ∉ eH)
    (hls : ∀ l ∈ ls, '\n' ∉ l ∧ '\r' ∉ l) :
    ∀ l ∈ update_daily_news_lines dH eH ls, '\n' ∉ l ∧ '\r' ∉ l := by
  intro l hl
  rcases mem_update_daily_news_lines dH eH ls l hl with h | h | h | h
  · exact h ▸ hdH
  · exact h ▸ heH
  · subst h; simp
  · exact hls l h

theorem update_summary_roundtrip (dH eH : List Char)
    (hpfx : "        - ".toList.isPrefixOf eH = true) (heHne : eH ≠ [])
    (hdH : '\n' ∉ dH ∧ '\r' ∉ dH) (heH : '\n' ∉ eH ∧ '\r' ∉ eH)
    (ls : List (List Char)) (hls : ∀ l ∈ ls, '\n' ∉ l ∧ '\r' ∉ l)
    (hlast : ls.getLast? ≠ some []) :
    joinLines (update_summary_lines dH eH
      (rustLines (joinLines (update_summary_lines dH eH ls)))) =
    joinLines (update_summary_lines dH eH ls) := by
  have hclean' := clean_lines_of_update_summary dH eH ls hdH heH hls
  have hlast' := update_summary_lines_last dH eH heHne ls hlast
  rw [rustLines_joinLines _ hclean' hlast',
    update_summary_lines_idem dH eH hpfx ls]

theorem update_daily_roundtrip (dH eH : List Char)
    (hpfx : "    - ".toList.isPrefixOf eH = true) (heHne : eH ≠ [])
    (hdne : rustTrim dH ≠ [])
    (hdH : '\n' ∉ dH ∧ '\r' ∉ dH) (heH : '\n' ∉ eH ∧ '\r' ∉ eH)
    (ls : List (List Char)) (hls : ∀ l ∈ ls, '\n' ∉ l ∧ '\r' ∉ l)
    (hlast : ls.getLast? ≠ some []) :
    joinLines (update_daily_news_lines dH eH
      (rustLines (joinLines (update_daily_news_lines dH eH ls)))) =
    joinLines (update_daily_news_lines dH eH ls) := by
  have hclean' := clean_lines_of_update_daily dH eH ls hdH heH hls
  have hlast' := update_daily_news_lines_last dH eH heHne ls hlast
  rw [rustLines_joinLines _ hclean' hlast',
    update_daily_news_lines_idem dH eH hpfx hdne ls]

theorem summary_heading_facts (fp : Models.FrontPage) (file : List Char)
    (hdate : '\n' ∉ fp.local_date ∧ '\r' ∉ fp.local_date)
    (htod : '\n' ∉ fp.time_of_day ∧ '\r' ∉ fp.time_of_day)
    (hfile : '\n' ∉ file ∧ '\r' ∉ file) :
    "        - ".toList.isPrefixOf
        (summaryEditionHeading fp.time_of_day file) = true ∧
    summaryEditionHeading fp.time_of_day file ≠ [] ∧
    ('\n' ∉ summaryDateHeading fp.local_date ∧
      '\r' ∉ summaryDateHeading fp.local_date) ∧
    ('\n' ∉ summaryEditionHeading fp.time_of_day file ∧
      '\r' ∉ summaryEditionHeading fp.time_of_day file) := by
  refine ⟨?_, ?_, ?_, ?_⟩
  · apply List.isPrefixOf_iff_prefix.2
    rw [summaryEditionHeading]
    exact isPrefix_append_right _ _ _ (isPrefix_append_right _ _ _
      (isPrefix_append_right _ _ _ (isPrefix_append_right _ _ _ (by decide))))
  · intro h
    rw [summaryEditionHeading] at h
    exact absurd (List.append_eq_nil.1 (List.append_eq_nil.1
      (List.append_eq_nil.1 (List.append_eq_nil.1 h).1).1).1).1 (by decide)
  · rw [summaryDateHeading]
    exact clean_append _ _ (clean_append _ _ (clean_append _ _
      (clean_append _ _ (by decide) hdate) (by decide)) hdate) (by decide)
  · rw [summaryEditionHeading]
    exact clean_append _ _ (clean_append _ _ (clean_append _ _
      (clean_append _ _ (by decide) (upcase_clean _ htod)) (by decide)) hfile)
      (by decide)

theorem daily_heading_facts (fp : Models.FrontPage) (file : List Char)
    (hdate : '\n' ∉ fp.local_date ∧ '\r' ∉ fp.local_date)
    (htod : '\n' ∉ fp.time_of_day ∧ '\r' ∉ fp.time_of_day)
    (hfile : '\n' ∉ file ∧ '\r' ∉ file) :
    "    - ".toList.isPrefixOf (dailyEditionEntry fp.time_of_day file) = true ∧
    dailyEditionEntry fp.time_of_day file ≠ [] ∧
    rustTrim (dailyDateHeading fp.local_date) ≠ [] ∧
    ('\n' ∉ dailyDateHeading fp.local_date ∧
      '\r' ∉ dailyDateHeading fp.local_date) ∧
    ('\n' ∉ dailyEditionEntry fp.time_of_day file ∧
      '\r' ∉ dailyEditionEntry fp.time_of_day file) := by
  refine ⟨?_, ?_, ?_, ?_, ?_⟩
  · apply List.isPrefixOf_iff_prefix.2
    rw [dailyEditionEntry]
    exact isPrefix_append_right _ _ _ (isPrefix_append_right _ _ _
      (isPrefix_append_right _ _ _ (isPrefix_append_right _ _ _ (by decide))))
  · intro h
    rw [dailyEditionEntry] at h
    exact absurd (List.append_eq_nil.1 (List.append_eq_nil.1
      (List.append_eq_nil.1 (List.append_eq_nil.1 h).1).1).1).1 (by decide)
  · rw [dailyDateHeading]
    exact rustTrim_ne_nil_of_head '-' (by decide) _
  · rw [dailyDateHeading]
    exact clean_append _ _ (clean_append _ _ (clean_append _ _
      (clean_append _ _ (by decide) hdate) (by decide)) hdate) (by decide)
  · rw [dailyEditionEntry]
    exact clean_append _ _ (clean_append _ _ (clean_append _ _
      (clean_append _ _ (by decide) (upcase_clean _ htod)) (by decide)) hfile)
      (by decide)

/-- Claim C1 (amended): `update_summary_md` is idempotent — re-applying
the merge with identical arguments to the document it produced yields that
document byte for byte — from an absent file and from every
carriage-return-free state not ending in a newline; `update_daily_news_index`
is idempotent from every carriage-return-free existing state not ending in
a newline (from an absent file its first output carries a trailing blank
line, so the second application differs exactly by that trailing newline);
`update_date_toc_file`, the per-date TOC, is NOT idempotent: it appends its
block on every call (see the counterexample).  Arguments are assumed
newline/CR-free. -/
theorem index_merge_idempotent (old : Option (List Char))
    (fp : Models.FrontPage) (file : List Char)
    (hdate : '\n' ∉ fp.local_date ∧ '\r' ∉ fp.local_date)
    (htod : '\n' ∉ fp.time_of_day ∧ '\r' ∉ fp.time_of_day)
    (hfile : '\n' ∉ file ∧ '\r' ∉ file)
    (hold : ∀ s, old = some s → '\r' ∉ s ∧ s.getLast? ≠ some '\n') :
    update_summary_md (some (update_summary_md old fp file)) fp file =
      update_summary_md old fp file ∧
    (∀ s, old = some s →
      update_daily_news_index (some (update_daily_news_index old fp file))
          fp file =
        update_daily_news_index old fp file) := by
  obtain ⟨hpfxS, hneS, hdHS, heHS⟩ :=
    summary_heading_facts fp file hdate htod hfile
  obtain ⟨hpfxD, hneD, hdneD, hdHD, heHD⟩ :=
    daily_heading_facts fp file hdate htod hfile
  cases old with
  | none =>
    constructor
    · exact update_summary_roundtrip _ _ hpfxS hneS hdHS heHS
        (rustLines summaryDefaultContent)
        (rustLines_clean _ (by decide)) (by decide)
    · intro s hs
      cases hs
  | some s =>
    obtain ⟨hscr, hsnl⟩ := hold s rfl
    constructor
    · exact update_summary_roundtrip _ _ hpfxS hneS hdHS heHS
        (rustLines s) (rustLines_clean _ hscr) (rustLines_last_ne_nil _ hsnl)
    · intro s2 hs2
      cases hs2
      exact update_daily_roundtrip _ _ hpfxD hneD hdneD hdHD heHD
        (rustLines s) (rustLines_clean _ hscr) (rustLines_last_ne_nil _ hsnl)

/-- Witness for C1 (amended) at a concrete instance: a fresh (absent)
SUMMARY.md and daily_news.md with a typical date/edition argument. -/
theorem index_merge_idempotent_witness :
    update_summary_md
        (some (update_summary_md none
          (Models.FrontPage.mk "2025-01-01".toList "morning".toList
            "08:00:00".toList []) "2025-01-01_morning.md".toList))
        (Models.FrontPage.mk "2025-01-01".toList "morning".toList
          "08:00:00".toList []) "2025-01-01_morning.md".toList =
      update_summary_md none
        (Models.FrontPage.mk "2025-01-01".toList "morning".toList
          "08:00:00".toList []) "2025-01-01_morning.md".toList :=
  (index_merge_idempotent none
    (Models.FrontPage.mk "2025-01-01".toList "morning".toList
      "08:00:00".toList []) "2025-01-01_morning.md".toList
    (by decide) (by decide) (by decide)
    (fun s hs => by cases hs)).1

theorem innerScan_shape (pfx eH : List Char) (ls : List (List Char)) :
    innerScan pfx eH ls = ls ∨
      ∃ l1 l2, ls = l1 ++ l2 ∧ innerScan pfx eH ls = l1 ++ eH :: l2 := by
  induction ls with
  | nil =>
    right
    exact ⟨[], [], rfl, by rw [innerScan]; rfl⟩
  | cons l rest ih =>
    rw [innerScan]
    split
    · split
      · left; rfl
      · rcases ih with h | ⟨l1, l2, he, hr⟩
        · left; rw [h]
        · right
          exact ⟨l :: l1, l2, by rw [he]; rfl, by rw [hr]; rfl⟩
    · right
      exact ⟨[], l :: rest, rfl, rfl⟩

theorem scanDate_shape (dH eH pfx : List Char) (ls : List (List Char)) :
    ∀ r, scanDate dH eH pfx ls = some r →
      r = ls ∨ ∃ l1 l2, ls = l1 ++ l2 ∧ r = l1 ++ eH :: l2 := by
  induction ls with
  | nil => intro r hr; cases hr
  | cons l rest ih =>
    intro r hr
    rw [scanDate] at hr
    split at hr
    · cases hr
      rcases innerScan_shape pfx eH rest with h | ⟨l1, l2, he, hr2⟩
      · left; rw [h]
      · right
        exact ⟨l :: l1, l2, by rw [he]; rfl, by rw [hr2]; rfl⟩
    · cases hs : scanDate dH eH pfx rest with
      | some r2 =>
        rw [hs] at hr
        cases hr
        rcases ih r2 hs with h | ⟨l1, l2, he, hr2⟩
        · left; rw [h]
        · right
          exact ⟨l :: l1, l2, by rw [he]; rfl, by rw [hr2]; rfl⟩
      | none => rw [hs] at hr; cases hr

theorem insertAfterDailyNewsAnchor_shape (dH eH : List Char)
    (ls : List (List Char)) :
    insertAfterDailyNewsAnchor dH eH ls = ls ∨
      ∃ l1 l2, ls = l1 ++ l2 ∧
        insertAfterDailyNewsAnchor dH eH ls = l1 ++ dH :: eH :: l2 := by
  induction ls with
  | nil => left; rfl
  | cons l rest ih =>
    rw [insertAfterDailyNewsAnchor]
    split
    · right
      exact ⟨[l], rest, rfl, rfl⟩
    · rcases ih with h | ⟨l1, l2, he, hr⟩
      · left; rw [h]
      · right
        exact ⟨l :: l1, l2, by rw [he]; rfl, by rw [hr]; rfl⟩

theorem insertAtNewsIndexAnchor_shape (dH eH : List Char)
    (ls : List (List Char)) :
    insertAtNewsIndexAnchor dH eH ls = ls ++ [dH, eH] ∨
      ∃ l1 l2, ls = l1 ++ l2 ∧
        insertAtNewsIndexAnchor dH eH ls = l1 ++ [] :: dH :: eH :: l2 := by
  induction ls with
  | nil => left; rfl
  | cons l rest ih =>
    rw [insertAtNewsIndexAnchor]
    split
    · right
      exact ⟨[l], rest, rfl, rfl⟩
    · rcases ih with h | ⟨l1, l2, he, hr⟩
      · left; rw [h]; rfl
      · right
        exact ⟨l :: l1, l2, by rw [he]; rfl, by rw [hr]; rfl⟩

theorem sublist_of_insert_shape {l1 l2 : List (List Char)}
    (x : List Char) : (l1 ++ l2).Sublist (l1 ++ x :: l2) :=
  List.Sublist.append_left (List.sublist_cons_self _ _) l1

theorem update_summary_lines_sublist (dH eH : List Char)
    (ls : List (List Char)) : ls.Sublist (update_summary_lines dH eH ls) := by
  rw [update_summary_lines]
  split
  · rename_i r hs
    rcases scanDate_shape dH eH _ ls r hs with h | ⟨l1, l2, he, hr⟩
    · rw [h]
    · rw [hr, he]
      exact sublist_of_insert_shape eH
  · rcases insertAfterDailyNewsAnchor_shape dH eH ls with h | ⟨l1, l2, he, hr⟩
    · rw [h]
    · rw [hr]
      conv_lhs => rw [he]
      exact (sublist_of_insert_shape dH).trans
        (List.Sublist.append_left (List.Sublist.cons₂ _
          (List.sublist_cons_self _ _)) l1) |>.trans (List.Sublist.refl _)

theorem update_daily_news_lines_sublist (dH eH : List Char)
    (ls : List (List Char)) :
    ls.Sublist (update_daily_news_lines dH eH ls) := by
  rw [update_daily_news_lines]
  split
  · rename_i r hs
    rcases scanDate_shape dH eH _ ls r hs with h | ⟨l1, l2, he, hr⟩
    · rw [h]
    · rw [hr, he]
      exact sublist_of_insert_shape eH
  · rcases insertAtNewsIndexAnchor_shape dH eH ls with h | ⟨l1, l2, he, hr⟩
    · rw [h]
      exact List.sublist_append_left _ _
    · rw [hr]
      conv_lhs => rw [he]
      refine List.Sublist.append_left ?_ l1
      exact (List.sublist_cons_self _ _).trans (List.Sublist.cons₂ _
        ((List.sublist_cons_self _ _).trans (List.Sublist.cons₂ _
          (List.sublist_cons_self _ _))))

theorem update_summary_lines_count (dH eH : List Char)
    (hne : rustTrim dH ≠ rustTrim eH) (ls : List (List Char))
    (h0 : ls.countP (fun l => decide (rustTrim l = rustTrim eH)) = 0) :
    (update_summary_lines dH eH ls).countP
      (fun l => decide (rustTrim l = rustTrim eH)) ≤ 1 := by
  rw [update_summary_lines]
  split
  · rename_i r hs
    rcases scanDate_shape dH eH _ ls r hs with h | ⟨l1, l2, he, hr⟩
    · rw [h, h0]
      omega
    · rw [he, List.countP_append] at h0
      rw [hr, List.countP_append, List.countP_cons]
      simp only [decide_eq_true_eq, eq_self_iff_true, if_true]
      omega
  · rcases insertAfterDailyNewsAnchor_shape dH eH ls with h | ⟨l1, l2, he, hr⟩
    · rw [h, h0]
      omega
    · rw [he, List.countP_append] at h0
      rw [hr, List.countP_append, List.countP_cons, List.countP_cons]
      simp only [decide_eq_true_eq, eq_self_iff_true, if_true, hne, if_false]
      omega

theorem update_daily_news_lines_count (dH eH : List Char)
    (hne : rustTrim dH ≠ rustTrim eH) (heHne : rustTrim eH ≠ [])
    (ls : List (List Char))
    (h0 : ls.countP (fun l => decide (rustTrim l = rustTrim eH)) = 0) :
    (update_daily_news_lines dH eH ls).countP
      (fun l => decide (rustTrim l = rustTrim eH)) ≤ 1 := by
  have hblank : rustTrim ([] : List Char) ≠ rustTrim eH := by
    intro he
    exact heHne (by rw [← he]; rfl)
  rw [update_daily_news_lines]
  split
  · rename_i r hs
    rcases scanDate_shape dH eH _ ls r hs with h | ⟨l1, l2, he, hr⟩
    · rw [h, h0]
      omega
    · rw [he, List.countP_append] at h0
      rw [hr, List.countP_append, List.countP_cons]
      simp only [decide_eq_true_eq, eq_self_iff_true, if_true]
      omega
  · rcases insertAtNewsIndexAnchor_shape dH eH ls with h | ⟨l1, l2, he, hr⟩
    · rw [h, List.countP_append, h0, List.countP_cons, List.countP_cons]
      simp only [decide_eq_true_eq, eq_self_iff_true, if_true, hne, if_false,
        List.countP_nil]
      omega
    · rw [he, List.countP_append] at h0
      rw [hr, List.countP_append, List.countP_cons, List.countP_cons,
        List.countP_cons]
      simp only [decide_eq_true_eq, eq_self_iff_true, if_true, hne, hblank,
        if_false]
      omega

theorem update_date_toc_preserves_bytes (old : List Char)
    (fp : Models.FrontPage) (file : List Char) :
    old <+: update_date_toc_file (some old) fp file := by
  rw [update_date_toc_file]
  simp only [Option.isNone_some, Bool.false_eq_true, if_false,
    Option.getD_some, List.append_nil, List.append_assoc]
  exact List.prefix_append _ _

/-- Claim C9 (amended): for `update_summary_md` and
`update_daily_news_index` every line present before the merge is still
present after it (the prior line sequence is a sublist of the result), and
when no line of the document trim-matches the item entry, the merged
document contains at most one line trim-matching it (requiring the group
heading and item entry not to trim-coincide, and for the daily index a
nonblank item entry); `update_date_toc_file` preserves the prior bytes as
a prefix but duplicates its (date, edition) pair when re-merged (see the
counterexample). -/
theorem index_merge_preserves_lines (dH eH : List Char)
    (ls : List (List Char)) :
    ls.Sublist (update_summary_lines dH eH ls) ∧
    ls.Sublist (update_daily_news_lines dH eH ls) ∧
    (∀ (old : List Char) (fp : Models.FrontPage) (file : List Char),
      old <+: update_date_toc_file (some old) fp file) ∧
    (rustTrim dH ≠ rustTrim eH →
      ls.countP (fun l => decide (rustTrim l = rustTrim eH)) = 0 →
      (update_summary_lines dH eH ls).countP
        (fun l => decide (rustTrim l = rustTrim eH)) ≤ 1 ∧
      (rustTrim eH ≠ [] →
        (update_daily_news_lines dH eH ls).countP
          (fun l => decide (rustTrim l = rustTrim eH)) ≤ 1)) := by
  refine ⟨update_summary_lines_sublist dH eH ls,
    update_daily_news_lines_sublist dH eH ls,
    update_date_toc_preserves_bytes,
    fun hne h0 => ⟨update_summary_lines_count dH eH hne ls h0,
      fun heHne => update_daily_news_lines_count dH eH hne heHne ls h0⟩⟩

/-- Witness for C9 (amended) at a concrete instance: an empty document and
a typical date heading / edition entry pair. -/
theorem index_merge_preserves_lines_witness :
    rustTrim "    - [d](./d.md)".toList ≠
      rustTrim "        - [M](./f)".toList ∧
    ([] : List (List Char)).countP
      (fun l => decide (rustTrim l = rustTrim "        - [M](./f)".toList))
      = 0 ∧
    (update_summary_lines "    - [d](./d.md)".toList
        "        - [M](./f)".toList []).countP
      (fun l => decide (rustTrim l = rustTrim "        - [M](./f)".toList))
      ≤ 1 := by
  refine ⟨by decide, rfl, ?_⟩
  exact ((index_merge_preserves_lines "    - [d](./d.md)".toList
    "        - [M](./f)".toList []).2.2.2 (by decide) rfl).1
